import Mathlib

/-!
# SimpleVector over ArrayPtr

Shallow embedding of `array_ptr.h` and `simple_vector.h`.

* A block obtained from `new Type[size]` is a list of slots; a null pointer
  owns no block.  Every slot access is checked against the block, so a read or
  write outside the block is the fault `bad_access` instead of a silent value.
* `size_t` arithmetic (`2 * capacity_`, `size_ + 1`, `++size_`) wraps at `2 ^ 64`.
* `assert` is modelled as enabled: a failed assertion is the fault `assertion`.
* Iterators are offsets from `begin()` into the block owned by the vector.
* Moving an element is modelled as copying it.
* Where the storage of two vectors is compared (the copy constructor), blocks live in a
  store and a buffer holds the address of its block, so a write through one vector is
  seen by every vector that holds the same address.
-/

/-- Ways in which a call fails to return normally. -/
inductive Fault where
  | out_of_range
  | assertion
  | bad_access
  deriving DecidableEq

/-- Number of values of `size_t` on a 64-bit target. -/
def SIZE_T_MOD : Nat := 2 ^ 64

/-- Result of an unsigned computation stored in a `size_t`. -/
def size_t (n : Nat) : Nat := n % SIZE_T_MOD

/-! ## array_ptr.h -/

/-- `ArrayPtr<Type>`: `raw_ptr_` is `none` for `nullptr`, otherwise the block it points to. -/
structure ArrayPtr (α : Type) where
  raw_ptr_ : Option (List α)

namespace ArrayPtr

variable {α : Type}

/-- `ArrayPtr() = default`: `raw_ptr_ = nullptr`. -/
def null : ArrayPtr α := ⟨none⟩

/-- `explicit ArrayPtr(size_t size)`: `new Type[size]` when `size != 0`, each slot
default-constructed (`Type{}`, also standing for what `new` leaves in a slot of a type
without a default constructor); `nullptr` otherwise.  Allocation does not fail. -/
def alloc [Inhabited α] (size : Nat) : ArrayPtr α :=
  if size ≠ 0 then ⟨some (List.replicate size default)⟩ else ⟨none⟩

/-- The slots of the owned block (no slots for `nullptr`). -/
def slots (p : ArrayPtr α) : List α :=
  match p.raw_ptr_ with
  | none => []
  | some b => b

/-- `operator[]` used as an rvalue: `raw_ptr_[index]`. -/
def read (p : ArrayPtr α) (index : Nat) : Except Fault α :=
  match p.raw_ptr_ with
  | none => .error .bad_access
  | some b =>
    match b[index]? with
    | some x => .ok x
    | none => .error .bad_access

/-- `operator[]` used as an lvalue: `raw_ptr_[index] = x`. -/
def write (p : ArrayPtr α) (index : Nat) (x : α) : Except Fault (ArrayPtr α) :=
  match p.raw_ptr_ with
  | none => .error .bad_access
  | some b => if index < b.length then .ok ⟨some (b.set index x)⟩ else .error .bad_access

/-- `Get`: the raw pointer; `none` is `nullptr`. -/
def Get (p : ArrayPtr α) : Option (List α) := p.raw_ptr_

/-- `ArrayPtr(ArrayPtr&& other)`: `raw_ptr_ = std::exchange(other.raw_ptr_, nullptr)`.
Returns the constructed object and `other` after the call. -/
def move_ctor (other : ArrayPtr α) : ArrayPtr α × ArrayPtr α :=
  (⟨other.raw_ptr_⟩, ⟨none⟩)

/-- `operator=(ArrayPtr&& rhs)`: returns at once when `this == &rhs` (`self_assignment`),
otherwise `std::swap(raw_ptr_, rhs.raw_ptr_)`.  Returns `*this` and `rhs` after the call. -/
def move_assign (this rhs : ArrayPtr α) (self_assignment : Bool) : ArrayPtr α × ArrayPtr α :=
  if self_assignment then (this, rhs) else (⟨rhs.raw_ptr_⟩, ⟨this.raw_ptr_⟩)

/-- `swap(ArrayPtr& other)`: `std::swap(raw_ptr_, other.raw_ptr_)`. -/
def swap (this other : ArrayPtr α) : ArrayPtr α × ArrayPtr α :=
  (⟨other.raw_ptr_⟩, ⟨this.raw_ptr_⟩)

end ArrayPtr

/-! ## The `<algorithm>` loops used by the vector -/

section Algorithms

variable {α : Type}

/-- Body of `std::copy` between two blocks: `n` times `*d_first++ = *first++`. -/
def std_copy_loop (src : ArrayPtr α) : Nat → Nat → ArrayPtr α → Nat → Except Fault (ArrayPtr α)
  | 0, _, dst, _ => .ok dst
  | n + 1, first, dst, d_first =>
    match src.read first with
    | .error e => .error e
    | .ok x =>
      match dst.write d_first x with
      | .error e => .error e
      | .ok dst1 => std_copy_loop src n (first + 1) dst1 (d_first + 1)

/-- `std::copy(&src[first], &src[last], &dst[d_first])`, `src` and `dst` distinct blocks. -/
def std_copy (src : ArrayPtr α) (first last : Nat) (dst : ArrayPtr α) (d_first : Nat) :
    Except Fault (ArrayPtr α) :=
  if last < first then .error .bad_access
  else std_copy_loop src (last - first) first dst d_first

/-- `std::move(&src[first], &src[last], &dst[d_first])` between two blocks. -/
def std_move (src : ArrayPtr α) (first last : Nat) (dst : ArrayPtr α) (d_first : Nat) :
    Except Fault (ArrayPtr α) :=
  std_copy src first last dst d_first

/-- Body of `std::move` inside one block: each step reads the block as the earlier steps left it. -/
def std_move_within_loop : Nat → ArrayPtr α → Nat → Nat → Except Fault (ArrayPtr α)
  | 0, p, _, _ => .ok p
  | n + 1, p, first, d_first =>
    match p.read first with
    | .error e => .error e
    | .ok x =>
      match p.write d_first x with
      | .error e => .error e
      | .ok p1 => std_move_within_loop n p1 (first + 1) (d_first + 1)

/-- `std::move(&p[first], &p[last], &p[d_first])`, source and destination in the same block. -/
def std_move_within (p : ArrayPtr α) (first last d_first : Nat) : Except Fault (ArrayPtr α) :=
  if last < first then .error .bad_access
  else std_move_within_loop (last - first) p first d_first

/-- Body of `std::copy_backward` between two blocks: `n` times `*--d_last = *--last`. -/
def std_copy_backward_loop (src : ArrayPtr α) :
    Nat → Nat → ArrayPtr α → Nat → Except Fault (ArrayPtr α)
  | 0, _, dst, _ => .ok dst
  | n + 1, last, dst, d_last =>
    if last = 0 ∨ d_last = 0 then .error .bad_access
    else
      match src.read (last - 1) with
      | .error e => .error e
      | .ok x =>
        match dst.write (d_last - 1) x with
        | .error e => .error e
        | .ok dst1 => std_copy_backward_loop src n (last - 1) dst1 (d_last - 1)

/-- `std::copy_backward(&src[first], &src[last], &dst[d_last])`, distinct blocks. -/
def std_copy_backward (src : ArrayPtr α) (first last : Nat) (dst : ArrayPtr α) (d_last : Nat) :
    Except Fault (ArrayPtr α) :=
  if last < first then .error .bad_access
  else std_copy_backward_loop src (last - first) last dst d_last

/-- `std::move_backward(&src[first], &src[last], &dst[d_last])`, distinct blocks. -/
def std_move_backward (src : ArrayPtr α) (first last : Nat) (dst : ArrayPtr α) (d_last : Nat) :
    Except Fault (ArrayPtr α) :=
  std_copy_backward src first last dst d_last

/-- Body of `std::copy_backward` inside one block. -/
def std_copy_backward_within_loop : Nat → ArrayPtr α → Nat → Nat → Except Fault (ArrayPtr α)
  | 0, p, _, _ => .ok p
  | n + 1, p, last, d_last =>
    if last = 0 ∨ d_last = 0 then .error .bad_access
    else
      match p.read (last - 1) with
      | .error e => .error e
      | .ok x =>
        match p.write (d_last - 1) x with
        | .error e => .error e
        | .ok p1 => std_copy_backward_within_loop n p1 (last - 1) (d_last - 1)

/-- `std::copy_backward(&p[first], &p[last], &p[d_last])`, same block. -/
def std_copy_backward_within (p : ArrayPtr α) (first last d_last : Nat) :
    Except Fault (ArrayPtr α) :=
  if last < first then .error .bad_access
  else std_copy_backward_within_loop (last - first) p last d_last

/-- `std::move_backward(&p[first], &p[last], &p[d_last])`, same block. -/
def std_move_backward_within (p : ArrayPtr α) (first last d_last : Nat) :
    Except Fault (ArrayPtr α) :=
  std_copy_backward_within p first last d_last

/-- Body of `std::fill`, also of the `for` loop of `Resize`: `n` times `*first++ = value`. -/
def std_fill_loop : Nat → ArrayPtr α → Nat → α → Except Fault (ArrayPtr α)
  | 0, p, _, _ => .ok p
  | n + 1, p, first, value =>
    match p.write first value with
    | .error e => .error e
    | .ok p1 => std_fill_loop n p1 (first + 1) value

/-- `std::fill(&p[first], &p[last], value)`. -/
def std_fill (p : ArrayPtr α) (first last : Nat) (value : α) : Except Fault (ArrayPtr α) :=
  if last < first then .error .bad_access
  else std_fill_loop (last - first) p first value

/-- Body of `std::equal`: `n` times compare `*first1++` with `*first2++`. -/
def std_equal_loop [DecidableEq α] (a b : ArrayPtr α) : Nat → Nat → Nat → Except Fault Bool
  | 0, _, _ => .ok true
  | n + 1, first1, first2 =>
    match a.read first1 with
    | .error e => .error e
    | .ok x =>
      match b.read first2 with
      | .error e => .error e
      | .ok y => if x = y then std_equal_loop a b n (first1 + 1) (first2 + 1) else .ok false

/-- `std::equal(&a[first1], &a[last1], &b[first2], &b[last2])` on random-access ranges:
`false` when the two distances differ, otherwise the element-wise comparison. -/
def std_equal [DecidableEq α] (a : ArrayPtr α) (first1 last1 : Nat) (b : ArrayPtr α)
    (first2 last2 : Nat) : Except Fault Bool :=
  if last1 < first1 ∨ last2 < first2 then .error .bad_access
  else if last1 - first1 ≠ last2 - first2 then .ok false
  else std_equal_loop a b (last1 - first1) first1 first2

/-- Body of `std::lexicographical_compare`, `n1` and `n2` elements left in the two ranges:
while both ranges are non-empty, `true` if `*first1 < *first2`, `false` if
`*first2 < *first1`, else advance; at the end `first1 == last1 && first2 != last2`. -/
def std_lexicographical_compare_loop [LT α] [DecidableRel (fun x y : α => x < y)]
    (a b : ArrayPtr α) : Nat → Nat → Nat → Nat → Except Fault Bool
  | 0, n2, _, _ => .ok (n2 != 0)
  | _ + 1, 0, _, _ => .ok false
  | n1 + 1, n2 + 1, first1, first2 =>
    match a.read first1 with
    | .error e => .error e
    | .ok x =>
      match b.read first2 with
      | .error e => .error e
      | .ok y =>
        if x < y then .ok true
        else if y < x then .ok false
        else std_lexicographical_compare_loop a b n1 n2 (first1 + 1) (first2 + 1)

/-- `std::lexicographical_compare(&a[first1], &a[last1], &b[first2], &b[last2])`. -/
def std_lexicographical_compare [LT α] [DecidableRel (fun x y : α => x < y)]
    (a : ArrayPtr α) (first1 last1 : Nat) (b : ArrayPtr α) (first2 last2 : Nat) :
    Except Fault Bool :=
  if last1 < first1 ∨ last2 < first2 then .error .bad_access
  else std_lexicographical_compare_loop a b (last1 - first1) (last2 - first2) first1 first2

end Algorithms

/-! ## simple_vector.h -/

/-- `SimpleVector<Type>`: the three data members. -/
structure SimpleVector (α : Type) where
  items_ : ArrayPtr α
  size_ : Nat
  capacity_ : Nat

namespace SimpleVector

variable {α : Type}

/-- `SimpleVector() noexcept = default`. -/
def empty : SimpleVector α := ⟨ArrayPtr.null, 0, 0⟩

/-- `SimpleVector(size_t size, const Type& value)`. -/
def sized_value [Inhabited α] (size : Nat) (value : α) : Except Fault (SimpleVector α) :=
  match std_fill (ArrayPtr.alloc size) 0 size value with
  | .error e => .error e
  | .ok items => .ok ⟨items, size, size⟩

/-- `explicit SimpleVector(size_t size)`: delegates to `SimpleVector(size, Type{})`. -/
def sized [Inhabited α] (size : Nat) : Except Fault (SimpleVector α) :=
  sized_value size default

/-- `SimpleVector(std::initializer_list<Type> init)`; the list is the array behind `init`. -/
def of_init [Inhabited α] (init : List α) : Except Fault (SimpleVector α) :=
  match std_copy ⟨some init⟩ 0 init.length (ArrayPtr.alloc init.length) 0 with
  | .error e => .error e
  | .ok items => .ok ⟨items, init.length, init.length⟩

/-- `GetSize`. -/
def GetSize (v : SimpleVector α) : Nat := v.size_

/-- `GetCapacity`. -/
def GetCapacity (v : SimpleVector α) : Nat := v.capacity_

/-- `IsEmpty`. -/
def IsEmpty (v : SimpleVector α) : Bool := v.size_ == 0

/-- `operator[]`: `assert(index < size_); return items_[index];`. -/
def index (v : SimpleVector α) (i : Nat) : Except Fault α :=
  if i < v.size_ then v.items_.read i else .error .assertion

/-- `At`: throws `out_of_range` when `index >= size_`, else `items_[index]`.
The second component is the vector after the call. -/
def At (v : SimpleVector α) (i : Nat) : Except Fault α × SimpleVector α :=
  if i ≥ v.size_ then (.error .out_of_range, v) else (v.items_.read i, v)

/-- `Clear`: `size_ = 0`. -/
def Clear (v : SimpleVector α) : SimpleVector α := { v with size_ := 0 }

/-- `Reserve`. `swap(new_vector)` leaves `*this` with the state built in `new_vector`. -/
def Reserve [Inhabited α] (v : SimpleVector α) (reserve_capacity : Nat) :
    Except Fault (SimpleVector α) :=
  if v.capacity_ < reserve_capacity then
    match sized reserve_capacity with
    | .error e => .error e
    | .ok new_vector =>
      match std_copy v.items_ 0 v.size_ new_vector.items_ 0 with
      | .error e => .error e
      | .ok items => .ok { new_vector with items_ := items, size_ := v.size_ }
  else .ok v

/-- `SimpleVector(ReserveItem item)`: `result.Reserve(item.Size()); swap(result);`. -/
def of_reserve [Inhabited α] (capacity_in : Nat) : Except Fault (SimpleVector α) :=
  Reserve (empty : SimpleVector α) capacity_in

/-- `Resize`. -/
def Resize [Inhabited α] (v : SimpleVector α) (new_size : Nat) : Except Fault (SimpleVector α) :=
  if new_size > v.capacity_ then
    let new_capacity := max new_size (size_t (2 * v.capacity_))
    match std_move v.items_ 0 v.size_ (ArrayPtr.alloc new_capacity) 0 with
    | .error e => .error e
    | .ok new_vector =>
      match std_fill new_vector v.size_ new_size default with
      | .error e => .error e
      | .ok new_vector => .ok ⟨new_vector, new_size, new_capacity⟩
  else .ok { v with size_ := new_size }

/-- `PushBack(const Type& item)`. -/
def PushBack [Inhabited α] (v : SimpleVector α) (item : α) : Except Fault (SimpleVector α) :=
  if v.size_ < v.capacity_ then
    match v.items_.write v.size_ item with
    | .error e => .error e
    | .ok items => .ok { v with items_ := items, size_ := size_t (v.size_ + 1) }
  else
    let new_capacity := max 1 (size_t (2 * v.capacity_))
    match std_copy v.items_ 0 v.size_ (ArrayPtr.alloc new_capacity) 0 with
    | .error e => .error e
    | .ok new_vector =>
      match new_vector.write v.size_ item with
      | .error e => .error e
      | .ok new_vector => .ok ⟨new_vector, size_t (v.size_ + 1), new_capacity⟩

/-- `PushBack(Type&& item)`. -/
def PushBack_move [Inhabited α] (v : SimpleVector α) (item : α) : Except Fault (SimpleVector α) :=
  if v.size_ < v.capacity_ then
    match v.items_.write v.size_ item with
    | .error e => .error e
    | .ok items => .ok { v with items_ := items, size_ := size_t (v.size_ + 1) }
  else
    let new_capacity := max 1 (size_t (2 * v.capacity_))
    match std_move v.items_ 0 v.size_ (ArrayPtr.alloc new_capacity) 0 with
    | .error e => .error e
    | .ok new_vector =>
      match new_vector.write v.size_ item with
      | .error e => .error e
      | .ok new_vector => .ok ⟨new_vector, size_t (v.size_ + 1), new_capacity⟩

/-- `Insert(ConstIterator index, const Type& item)`; `pos` is `index - cbegin()`.
Returns the offset of the returned iterator and the vector after the call. -/
def Insert [Inhabited α] (v : SimpleVector α) (pos : Nat) (item : α) :
    Except Fault (Nat × SimpleVector α) :=
  if pos ≤ v.size_ then
    let item_pos := pos
    if v.size_ < v.capacity_ then
      match std_copy_backward_within v.items_ pos v.size_ (size_t (v.size_ + 1)) with
      | .error e => .error e
      | .ok items =>
        match items.write item_pos item with
        | .error e => .error e
        | .ok items => .ok (item_pos, { v with items_ := items, size_ := size_t (v.size_ + 1) })
    else
      let new_capacity := max 1 (size_t (2 * v.capacity_))
      match std_copy v.items_ 0 item_pos (ArrayPtr.alloc new_capacity) 0 with
      | .error e => .error e
      | .ok new_vector =>
        match std_copy_backward v.items_ pos v.size_ new_vector (size_t (v.size_ + 1)) with
        | .error e => .error e
        | .ok new_vector =>
          match new_vector.write v.size_ item with
          | .error e => .error e
          | .ok new_vector => .ok (item_pos, ⟨new_vector, size_t (v.size_ + 1), new_capacity⟩)
  else .error .assertion

/-- `Insert(ConstIterator index, Type&& item)`; `pos` is `index - cbegin()`. -/
def Insert_move [Inhabited α] (v : SimpleVector α) (pos : Nat) (item : α) :
    Except Fault (Nat × SimpleVector α) :=
  if pos ≤ v.size_ then
    let pos_item := pos
    if v.size_ < v.capacity_ then
      match std_move_backward_within v.items_ pos v.size_ (size_t (v.size_ + 1)) with
      | .error e => .error e
      | .ok items =>
        match items.write pos_item item with
        | .error e => .error e
        | .ok items => .ok (pos_item, { v with items_ := items, size_ := size_t (v.size_ + 1) })
    else
      let new_capacity := max 1 (size_t (2 * v.capacity_))
      match std_move v.items_ 0 pos_item (ArrayPtr.alloc new_capacity) 0 with
      | .error e => .error e
      | .ok arr_ptr =>
        match std_move_backward v.items_ pos v.size_ arr_ptr (size_t (v.size_ + 1)) with
        | .error e => .error e
        | .ok arr_ptr =>
          match arr_ptr.write pos_item item with
          | .error e => .error e
          | .ok arr_ptr => .ok (pos_item, ⟨arr_ptr, size_t (v.size_ + 1), new_capacity⟩)
  else .error .assertion

/-- `PopBack`: `assert(!IsEmpty()); --size_;`. -/
def PopBack (v : SimpleVector α) : Except Fault (SimpleVector α) :=
  if v.IsEmpty then .error .assertion else .ok { v with size_ := v.size_ - 1 }

/-- `Erase(ConstIterator index)`; `pos` is `index - cbegin()`. -/
def Erase (v : SimpleVector α) (pos : Nat) : Except Fault (Nat × SimpleVector α) :=
  if pos < v.size_ then
    let pos_element := pos
    match std_move_within v.items_ (pos + 1) v.size_ pos_element with
    | .error e => .error e
    | .ok items => .ok (pos_element, { v with items_ := items, size_ := v.size_ - 1 })
  else .error .assertion

/-- `SimpleVector(const SimpleVector& other)`. -/
def copy_ctor [Inhabited α] (other : SimpleVector α) : Except Fault (SimpleVector α) :=
  match std_copy other.items_ 0 other.size_ (ArrayPtr.alloc other.size_) 0 with
  | .error e => .error e
  | .ok items => .ok ⟨items, other.size_, other.size_⟩

/-- `SimpleVector(SimpleVector&& other)`: the members start default-initialized, then
`items_ = std::move(other.items_)`, `size_ = std::exchange(other.size_, 0)`,
`capacity_ = std::exchange(other.capacity_, 0)`.  Returns the constructed vector and
`other` after the call. -/
def move_ctor (other : SimpleVector α) : SimpleVector α × SimpleVector α :=
  let r := ArrayPtr.move_assign ArrayPtr.null other.items_ false
  (⟨r.1, other.size_, other.capacity_⟩, ⟨r.2, 0, 0⟩)

/-- `swap(SimpleVector& other)`: returns `*this` and `other` after the call. -/
def swap (this other : SimpleVector α) : SimpleVector α × SimpleVector α :=
  let r := ArrayPtr.swap this.items_ other.items_
  (⟨r.1, other.size_, other.capacity_⟩, ⟨r.2, this.size_, this.capacity_⟩)

/-- `operator=(const SimpleVector& rhs)`; `self_assignment` is `this == &rhs`.
`swap(new_vector)` leaves `*this` with the state built in `new_vector`. -/
def copy_assign [Inhabited α] (this rhs : SimpleVector α) (self_assignment : Bool) :
    Except Fault (SimpleVector α) :=
  if self_assignment then .ok this
  else if rhs.IsEmpty then .ok (Clear this)
  else
    match sized rhs.size_ with
    | .error e => .error e
    | .ok new_vector =>
      match std_copy rhs.items_ 0 rhs.size_ new_vector.items_ 0 with
      | .error e => .error e
      | .ok items =>
        let new_vector := { new_vector with items_ := items, capacity_ := rhs.capacity_ }
        .ok (swap this new_vector).1

/-- `operator=(SimpleVector&& rhs)`: the body is that of the copy assignment. -/
def move_assign [Inhabited α] (this rhs : SimpleVector α) (self_assignment : Bool) :
    Except Fault (SimpleVector α) :=
  if self_assignment then .ok this
  else if rhs.IsEmpty then .ok (Clear this)
  else
    match sized rhs.size_ with
    | .error e => .error e
    | .ok new_vector =>
      match std_copy rhs.items_ 0 rhs.size_ new_vector.items_ 0 with
      | .error e => .error e
      | .ok items =>
        let new_vector := { new_vector with items_ := items, capacity_ := rhs.capacity_ }
        .ok (swap this new_vector).1

/-- `operator[]` used as an lvalue: `assert(index < size_); items_[index] = x`. -/
def assign_at (v : SimpleVector α) (i : Nat) (x : α) : Except Fault (SimpleVector α) :=
  if i < v.size_ then
    match v.items_.write i x with
    | .error e => .error e
    | .ok items => .ok { v with items_ := items }
  else .error .assertion

/-- `operator==`: `std::equal(lhs.begin(), lhs.end(), rhs.begin(), rhs.end())`. -/
def operator_eq [DecidableEq α] (lhs rhs : SimpleVector α) : Except Fault Bool :=
  std_equal lhs.items_ 0 lhs.size_ rhs.items_ 0 rhs.size_

/-- `operator!=`: `!(lhs == rhs)`. -/
def operator_ne [DecidableEq α] (lhs rhs : SimpleVector α) : Except Fault Bool :=
  match operator_eq lhs rhs with
  | .error e => .error e
  | .ok r => .ok (!r)

/-- `operator<`: `std::lexicographical_compare(lhs.begin(), lhs.end(), rhs.begin(), rhs.end())`. -/
def operator_lt [LT α] [DecidableRel (fun x y : α => x < y)] (lhs rhs : SimpleVector α) :
    Except Fault Bool :=
  std_lexicographical_compare lhs.items_ 0 lhs.size_ rhs.items_ 0 rhs.size_

/-- `operator<=`: `!(lhs < rhs)`. -/
def operator_le [LT α] [DecidableRel (fun x y : α => x < y)] (lhs rhs : SimpleVector α) :
    Except Fault Bool :=
  match operator_lt lhs rhs with
  | .error e => .error e
  | .ok r => .ok (!r)

/-- `operator>`: `lhs < rhs`. -/
def operator_gt [LT α] [DecidableRel (fun x y : α => x < y)] (lhs rhs : SimpleVector α) :
    Except Fault Bool :=
  operator_lt lhs rhs

/-- `operator>=`: `!(lhs < rhs)`. -/
def operator_ge [LT α] [DecidableRel (fun x y : α => x < y)] (lhs rhs : SimpleVector α) :
    Except Fault Bool :=
  match operator_lt lhs rhs with
  | .error e => .error e
  | .ok r => .ok (!r)

/-- The logical sequence: the slots at indices `[0, size_)` that lie in the block. -/
def toList (v : SimpleVector α) : List α := v.items_.slots.take v.size_

/-- Lexicographic comparison of two sequences by the rule of `std::lexicographical_compare`. -/
def lex_lt_list [LT α] [DecidableRel (fun x y : α => x < y)] : List α → List α → Bool
  | [], [] => false
  | [], _ :: _ => true
  | _ :: _, [] => false
  | x :: xs, y :: ys => if x < y then true else if y < x then false else lex_lt_list xs ys

/-- Lexicographic precedence in the words of the specification: there is a first index
at which the sequences differ and the left element is smaller there, or the left
sequence is a proper initial segment of the right one. -/
def lex_precedes [LT α] (xs ys : List α) : Prop :=
  (∃ (i : Nat) (x y : α), xs[i]? = some x ∧ ys[i]? = some y ∧ x < y ∧
      ∀ j : Nat, j < i → xs[j]? = ys[j]?) ∨
  (xs.length < ys.length ∧ ∀ j : Nat, j < xs.length → xs[j]? = ys[j]?)

/-- The data-model invariant `0 <= size <= capacity`. -/
def size_le_capacity (v : SimpleVector α) : Prop := v.size_ ≤ v.capacity_

/-- The data-model invariant that `capacity` is the number of slots of the owned block
(so `capacity == 0` exactly when there are no slots). -/
def capacity_is_block (v : SimpleVector α) : Prop := v.items_.slots.length = v.capacity_

instance (v : SimpleVector α) : Decidable v.size_le_capacity :=
  inferInstanceAs (Decidable (v.size_ ≤ v.capacity_))

instance (v : SimpleVector α) : Decidable v.capacity_is_block :=
  inferInstanceAs (Decidable (v.items_.slots.length = v.capacity_))

/-- The capacity is the smallest power of two that is at least the size, or both are 0:
the shape the doubling policy keeps when only `PushBack` is called. -/
def doubling_shape (v : SimpleVector α) : Prop :=
  (v.size_ = 0 ∧ v.capacity_ = 0) ∨
  (∃ k : Nat, v.capacity_ = 2 ^ k ∧ v.size_ ≤ v.capacity_ ∧ v.capacity_ < 2 * v.size_)

/-- The vector `{1, 2, 3}` as the initializer-list constructor builds it. -/
def vec123 : SimpleVector Nat := ⟨⟨some [1, 2, 3]⟩, 3, 3⟩

/-- The vector `{1, 2, 4}`. -/
def vec124 : SimpleVector Nat := ⟨⟨some [1, 2, 4]⟩, 3, 3⟩

/-- The vector `{1, 2}`. -/
def vec12 : SimpleVector Nat := ⟨⟨some [1, 2]⟩, 2, 2⟩

/-- The vector after `PushBack(1)`, `PushBack(2)`, `PushBack(3)` on an empty vector. -/
def pushed123 : SimpleVector Nat := ⟨⟨some [1, 2, 3, 0]⟩, 3, 4⟩

/-- One `PushBack` call per element, in order; `true` selects the `Type&&` overload. -/
def push_each [Inhabited α] : SimpleVector α → List (Bool × α) → Except Fault (SimpleVector α)
  | v, [] => .ok v
  | v, (rvalue, x) :: rest =>
    match (if rvalue then PushBack_move v x else PushBack v x) with
    | .error e => .error e
    | .ok w => push_each w rest

end SimpleVector

/-! ## Address-level view

Where two objects could share a block, the blocks are kept in a free store and a pointer
is an address in it.  `view` reads an object at this level as the object of the
definitions above, and the loops and slot accesses are the ones above. -/

/-- The free store: the blocks handed out by `new[]`, by address. -/
abbrev Heap (α : Type) := List (List α)

/-- `ArrayPtr` as a pointer: `raw_ptr_` is `none` for `nullptr`, otherwise an address. -/
structure ArrayPtrRef where
  raw_ptr_ : Option Nat

/-- `SimpleVector` with its `ArrayPtr` member held by address. -/
structure SimpleVectorRef where
  items_ : ArrayPtrRef
  size_ : Nat
  capacity_ : Nat

namespace ArrayPtrRef

variable {α : Type}

/-- The buffer a pointer denotes in the store: the block at its address; no block for
`nullptr` and for an address that holds none. -/
def deref (p : ArrayPtrRef) (h : Heap α) : ArrayPtr α :=
  match p.raw_ptr_ with
  | none => ⟨none⟩
  | some a => ⟨h[a]?⟩

/-- `explicit ArrayPtr(size_t size)` in the store: `new Type[size]` when `size != 0` puts a
block of default-constructed slots at a fresh address; `nullptr` otherwise. -/
def alloc [Inhabited α] (h : Heap α) (size : Nat) : Heap α × ArrayPtrRef :=
  if size ≠ 0 then (h ++ [List.replicate size default], ⟨some h.length⟩) else (h, ⟨none⟩)

/-- The store after the writes through `p` that left its block as `b`. -/
def store (p : ArrayPtrRef) (h : Heap α) (b : ArrayPtr α) : Heap α :=
  match p.raw_ptr_ with
  | none => h
  | some a => h.set a b.slots

end ArrayPtrRef

namespace SimpleVectorRef

variable {α : Type}

/-- The vector an object denotes in the store. -/
def view (v : SimpleVectorRef) (h : Heap α) : SimpleVector α :=
  ⟨v.items_.deref h, v.size_, v.capacity_⟩

/-- `SimpleVector(const SimpleVector& other)`: `items_(other.size_)`, `size_(other.size_)`,
`capacity_(other.size_)`, then `std::copy(other.begin(), other.end(), items_.Get())`.
Returns the store after the call and the constructed object. -/
def copy_ctor [Inhabited α] (h : Heap α) (other : SimpleVectorRef) :
    Except Fault (Heap α × SimpleVectorRef) :=
  let a := ArrayPtrRef.alloc h other.size_
  match std_copy (other.items_.deref a.1) 0 other.size_ (a.2.deref a.1) 0 with
  | .error e => .error e
  | .ok block => .ok (a.2.store a.1 block, ⟨a.2, other.size_, other.size_⟩)

/-- `operator[]` used as an lvalue: `assert(index < size_); items_[index] = x`.
Returns the store after the write. -/
def assign_at (h : Heap α) (v : SimpleVectorRef) (i : Nat) (x : α) : Except Fault (Heap α) :=
  if i < v.size_ then
    match (v.items_.deref h).write i x with
    | .error e => .error e
    | .ok block => .ok (v.items_.store h block)
  else .error .assertion

/-- A store whose only block, at address 0, is the block of `SimpleVector.pushed123`. -/
def heap123 : Heap Nat := [[1, 2, 3, 0]]

/-- The vector `SimpleVector.pushed123` held by address in `heap123`. -/
def pushed123 : SimpleVectorRef := ⟨⟨some 0⟩, 3, 4⟩

end SimpleVectorRef

/-! ## Slot-level facts about `ArrayPtr` -/

namespace ArrayPtr

variable {α : Type}

theorem slots_mk (b : List α) : (⟨some b⟩ : ArrayPtr α).slots = b := rfl

theorem slots_null : (null : ArrayPtr α).slots = [] := rfl

theorem slots_alloc [Inhabited α] (n : Nat) :
    (alloc n : ArrayPtr α).slots = List.replicate n default := by
  unfold alloc
  split
  · rfl
  · have h0 : n = 0 := by omega
    subst h0
    rfl

theorem read_of_getElem? {p : ArrayPtr α} {i : Nat} {x : α} (h : p.slots[i]? = some x) :
    p.read i = .ok x := by
  unfold read
  unfold slots at h
  cases hp : p.raw_ptr_ with
  | none => rw [hp] at h; simp at h
  | some b => rw [hp] at h; simp only [] at h ⊢; rw [h]

theorem read_of_lt {p : ArrayPtr α} {i : Nat} (h : i < p.slots.length) :
    p.read i = .ok p.slots[i] :=
  read_of_getElem? (List.getElem?_eq_getElem h)

theorem read_of_ge {p : ArrayPtr α} {i : Nat} (h : p.slots.length ≤ i) :
    p.read i = .error .bad_access := by
  unfold read
  unfold slots at h
  cases hp : p.raw_ptr_ with
  | none => rfl
  | some b =>
    rw [hp] at h
    simp only [] at h ⊢
    rw [List.getElem?_eq_none h]

theorem write_of_lt {p : ArrayPtr α} {i : Nat} (x : α) (h : i < p.slots.length) :
    ∃ r, p.write i x = .ok r ∧ r.slots = p.slots.set i x := by
  unfold write
  unfold slots at h ⊢
  cases hp : p.raw_ptr_ with
  | none => rw [hp] at h; simp at h
  | some b =>
    rw [hp] at h
    simp only [] at h ⊢
    exact ⟨⟨some (b.set i x)⟩, by rw [if_pos h], rfl⟩

theorem write_of_ge {p : ArrayPtr α} {i : Nat} (x : α) (h : p.slots.length ≤ i) :
    p.write i x = .error .bad_access := by
  unfold write
  unfold slots at h
  cases hp : p.raw_ptr_ with
  | none => rfl
  | some b =>
    rw [hp] at h
    simp only [] at h ⊢
    rw [if_neg (by omega)]

end ArrayPtr

/-! ## What the loops leave in the destination block -/

section AlgorithmFacts

variable {α : Type}

theorem std_copy_loop_spec (src : ArrayPtr α) :
    ∀ (n first : Nat) (dst : ArrayPtr α) (d : Nat),
      first + n ≤ src.slots.length → d + n ≤ dst.slots.length →
      ∃ r, std_copy_loop src n first dst d = .ok r ∧ r.slots.length = dst.slots.length ∧
        ∀ i, r.slots[i]? =
          if d ≤ i ∧ i < d + n then src.slots[first + (i - d)]? else dst.slots[i]? := by
  intro n
  induction n with
  | zero =>
    intro first dst d _ _
    refine ⟨dst, rfl, rfl, ?_⟩
    intro i
    rw [if_neg (by omega)]
  | succ n ih =>
    intro first dst d hs hd
    have hr : src.read first = .ok src.slots[first] := ArrayPtr.read_of_lt (by omega)
    obtain ⟨dst1, hw, hslots⟩ := ArrayPtr.write_of_lt (p := dst) (src.slots[first]) (show d < dst.slots.length by omega)
    have hlen1 : dst1.slots.length = dst.slots.length := by rw [hslots, List.length_set]
    obtain ⟨r, hrun, hlen, hget⟩ := ih (first + 1) dst1 (d + 1) (by omega) (by omega)
    refine ⟨r, ?_, by omega, ?_⟩
    · simp only [std_copy_loop, hr, hw, hrun]
    · intro i
      rw [hget i, hslots, List.getElem?_set]
      by_cases h1 : d + 1 ≤ i ∧ i < d + 1 + n
      · rw [if_pos h1, if_pos (by omega)]
        congr 1
        omega
      · rw [if_neg h1]
        by_cases h2 : d = i
        · subst h2
          rw [if_pos rfl, if_pos (by omega), if_pos (by omega)]
          simp only [Nat.sub_self, Nat.add_zero]
          exact (List.getElem?_eq_getElem _).symm
        · rw [if_neg h2, if_neg (by omega)]

theorem std_copy_spec (src : ArrayPtr α) (first last : Nat) (dst : ArrayPtr α) (d : Nat)
    (hfl : first ≤ last) (hs : last ≤ src.slots.length)
    (hd : d + (last - first) ≤ dst.slots.length) :
    ∃ r, std_copy src first last dst d = .ok r ∧ r.slots.length = dst.slots.length ∧
      ∀ i, r.slots[i]? =
        if d ≤ i ∧ i < d + (last - first) then src.slots[first + (i - d)]? else dst.slots[i]? := by
  unfold std_copy
  rw [if_neg (by omega)]
  exact std_copy_loop_spec src (last - first) first dst d (by omega) hd

theorem std_move_within_loop_spec :
    ∀ (n : Nat) (p : ArrayPtr α) (first d : Nat),
      d ≤ first → first + n ≤ p.slots.length →
      ∃ r, std_move_within_loop n p first d = .ok r ∧ r.slots.length = p.slots.length ∧
        ∀ i, r.slots[i]? =
          if d ≤ i ∧ i < d + n then p.slots[first + (i - d)]? else p.slots[i]? := by
  intro n
  induction n with
  | zero =>
    intro p first d _ _
    refine ⟨p, rfl, rfl, ?_⟩
    intro i
    rw [if_neg (by omega)]
  | succ n ih =>
    intro p first d hdf hs
    have hr : p.read first = .ok p.slots[first] := ArrayPtr.read_of_lt (by omega)
    obtain ⟨p1, hw, hslots⟩ := ArrayPtr.write_of_lt (p := p) (p.slots[first]) (show d < p.slots.length by omega)
    have hlen1 : p1.slots.length = p.slots.length := by rw [hslots, List.length_set]
    obtain ⟨r, hrun, hlen, hget⟩ := ih p1 (first + 1) (d + 1) (by omega) (by omega)
    refine ⟨r, ?_, by omega, ?_⟩
    · simp only [std_move_within_loop, hr, hw, hrun]
    · intro i
      rw [hget i, hslots]
      by_cases h1 : d + 1 ≤ i ∧ i < d + 1 + n
      · rw [if_pos h1, if_pos (by omega), List.getElem?_set, if_neg (by omega)]
        congr 1
        omega
      · rw [if_neg h1, List.getElem?_set]
        by_cases h2 : d = i
        · subst h2
          rw [if_pos rfl, if_pos (by omega), if_pos (by omega)]
          simp only [Nat.sub_self, Nat.add_zero]
          exact (List.getElem?_eq_getElem _).symm
        · rw [if_neg h2, if_neg (by omega)]

theorem std_move_within_spec (p : ArrayPtr α) (first last d : Nat)
    (hfl : first ≤ last) (hs : last ≤ p.slots.length) (hdf : d ≤ first) :
    ∃ r, std_move_within p first last d = .ok r ∧ r.slots.length = p.slots.length ∧
      ∀ i, r.slots[i]? =
        if d ≤ i ∧ i < d + (last - first) then p.slots[first + (i - d)]? else p.slots[i]? := by
  unfold std_move_within
  rw [if_neg (by omega)]
  exact std_move_within_loop_spec (last - first) p first d hdf (by omega)

theorem std_copy_backward_loop_spec (src : ArrayPtr α) :
    ∀ (n last : Nat) (dst : ArrayPtr α) (d_last : Nat),
      n ≤ last → last ≤ src.slots.length → n ≤ d_last → d_last ≤ dst.slots.length →
      ∃ r, std_copy_backward_loop src n last dst d_last = .ok r ∧
        r.slots.length = dst.slots.length ∧
        ∀ i, r.slots[i]? =
          if d_last - n ≤ i ∧ i < d_last then src.slots[last - (d_last - i)]?
          else dst.slots[i]? := by
  intro n
  induction n with
  | zero =>
    intro last dst d_last _ _ _ _
    refine ⟨dst, rfl, rfl, ?_⟩
    intro i
    rw [if_neg (by omega)]
  | succ n ih =>
    intro last dst d_last hnl hs hnd hd
    have hr : src.read (last - 1) = .ok src.slots[last - 1] := ArrayPtr.read_of_lt (by omega)
    obtain ⟨dst1, hw, hslots⟩ := ArrayPtr.write_of_lt (p := dst) (src.slots[last - 1])
      (show d_last - 1 < dst.slots.length by omega)
    have hlen1 : dst1.slots.length = dst.slots.length := by rw [hslots, List.length_set]
    obtain ⟨r, hrun, hlen, hget⟩ :=
      ih (last - 1) dst1 (d_last - 1) (by omega) (by omega) (by omega) (by omega)
    refine ⟨r, ?_, by omega, ?_⟩
    · have hz : ¬ (last = 0 ∨ d_last = 0) := by omega
      simp only [std_copy_backward_loop, if_neg hz, hr, hw, hrun]
    · intro i
      rw [hget i, hslots, List.getElem?_set]
      by_cases h1 : d_last - 1 - n ≤ i ∧ i < d_last - 1
      · rw [if_pos h1, if_pos (by omega)]
        congr 1
        omega
      · rw [if_neg h1]
        by_cases h2 : d_last - 1 = i
        · subst h2
          rw [if_pos rfl, if_pos (by omega), if_pos (by omega)]
          have e : last - (d_last - (d_last - 1)) = last - 1 := by omega
          rw [e]
          exact (List.getElem?_eq_getElem _).symm
        · rw [if_neg h2, if_neg (by omega)]

theorem std_copy_backward_spec (src : ArrayPtr α) (first last : Nat) (dst : ArrayPtr α)
    (d_last : Nat) (hfl : first ≤ last) (hs : last ≤ src.slots.length)
    (hnd : last - first ≤ d_last) (hd : d_last ≤ dst.slots.length) :
    ∃ r, std_copy_backward src first last dst d_last = .ok r ∧
      r.slots.length = dst.slots.length ∧
      ∀ i, r.slots[i]? =
        if d_last - (last - first) ≤ i ∧ i < d_last then src.slots[last - (d_last - i)]?
        else dst.slots[i]? := by
  unfold std_copy_backward
  rw [if_neg (by omega)]
  exact std_copy_backward_loop_spec src (last - first) last dst d_last (by omega) hs hnd hd

theorem std_copy_backward_within_loop_spec :
    ∀ (n : Nat) (p : ArrayPtr α) (last d_last : Nat),
      n ≤ last → last ≤ d_last → d_last ≤ p.slots.length →
      ∃ r, std_copy_backward_within_loop n p last d_last = .ok r ∧
        r.slots.length = p.slots.length ∧
        ∀ i, r.slots[i]? =
          if d_last - n ≤ i ∧ i < d_last then p.slots[last - (d_last - i)]?
          else p.slots[i]? := by
  intro n
  induction n with
  | zero =>
    intro p last d_last _ _ _
    refine ⟨p, rfl, rfl, ?_⟩
    intro i
    rw [if_neg (by omega)]
  | succ n ih =>
    intro p last d_last hnl hld hd
    have hr : p.read (last - 1) = .ok p.slots[last - 1] := ArrayPtr.read_of_lt (by omega)
    obtain ⟨p1, hw, hslots⟩ := ArrayPtr.write_of_lt (p := p) (p.slots[last - 1])
      (show d_last - 1 < p.slots.length by omega)
    have hlen1 : p1.slots.length = p.slots.length := by rw [hslots, List.length_set]
    obtain ⟨r, hrun, hlen, hget⟩ :=
      ih p1 (last - 1) (d_last - 1) (by omega) (by omega) (by omega)
    refine ⟨r, ?_, by omega, ?_⟩
    · have hz : ¬ (last = 0 ∨ d_last = 0) := by omega
      simp only [std_copy_backward_within_loop, if_neg hz, hr, hw, hrun]
    · intro i
      rw [hget i, hslots]
      by_cases h1 : d_last - 1 - n ≤ i ∧ i < d_last - 1
      · rw [if_pos h1, if_pos (by omega), List.getElem?_set, if_neg (by omega)]
        congr 1
        omega
      · rw [if_neg h1, List.getElem?_set]
        by_cases h2 : d_last - 1 = i
        · subst h2
          rw [if_pos rfl, if_pos (by omega), if_pos (by omega)]
          have e : last - (d_last - (d_last - 1)) = last - 1 := by omega
          rw [e]
          exact (List.getElem?_eq_getElem _).symm
        · rw [if_neg h2, if_neg (by omega)]

theorem std_copy_backward_within_spec (p : ArrayPtr α) (first last d_last : Nat)
    (hfl : first ≤ last) (hld : last ≤ d_last) (hd : d_last ≤ p.slots.length) :
    ∃ r, std_copy_backward_within p first last d_last = .ok r ∧
      r.slots.length = p.slots.length ∧
      ∀ i, r.slots[i]? =
        if d_last - (last - first) ≤ i ∧ i < d_last then p.slots[last - (d_last - i)]?
        else p.slots[i]? := by
  unfold std_copy_backward_within
  rw [if_neg (by omega)]
  exact std_copy_backward_within_loop_spec (last - first) p last d_last (by omega) hld hd

theorem std_fill_loop_spec (value : α) :
    ∀ (n : Nat) (p : ArrayPtr α) (first : Nat),
      first + n ≤ p.slots.length →
      ∃ r, std_fill_loop n p first value = .ok r ∧ r.slots.length = p.slots.length ∧
        ∀ i, r.slots[i]? = if first ≤ i ∧ i < first + n then some value else p.slots[i]? := by
  intro n
  induction n with
  | zero =>
    intro p first _
    refine ⟨p, rfl, rfl, ?_⟩
    intro i
    rw [if_neg (by omega)]
  | succ n ih =>
    intro p first hs
    obtain ⟨p1, hw, hslots⟩ := ArrayPtr.write_of_lt (p := p) value
      (show first < p.slots.length by omega)
    have hlen1 : p1.slots.length = p.slots.length := by rw [hslots, List.length_set]
    obtain ⟨r, hrun, hlen, hget⟩ := ih p1 (first + 1) (by omega)
    refine ⟨r, ?_, by omega, ?_⟩
    · simp only [std_fill_loop, hw, hrun]
    · intro i
      rw [hget i, hslots, List.getElem?_set]
      by_cases h1 : first + 1 ≤ i ∧ i < first + 1 + n
      · rw [if_pos h1, if_pos (by omega)]
      · rw [if_neg h1]
        by_cases h2 : first = i
        · subst h2
          rw [if_pos rfl, if_pos (by omega), if_pos (by omega)]
        · rw [if_neg h2, if_neg (by omega)]

theorem std_fill_spec (p : ArrayPtr α) (first last : Nat) (value : α)
    (hfl : first ≤ last) (hs : last ≤ p.slots.length) :
    ∃ r, std_fill p first last value = .ok r ∧ r.slots.length = p.slots.length ∧
      ∀ i, r.slots[i]? = if first ≤ i ∧ i < last then some value else p.slots[i]? := by
  unfold std_fill
  rw [if_neg (by omega)]
  obtain ⟨r, h1, h2, h3⟩ := std_fill_loop_spec value (last - first) p first (by omega)
  refine ⟨r, h1, h2, ?_⟩
  intro i
  rw [h3 i]
  by_cases h : first ≤ i ∧ i < last
  · rw [if_pos h, if_pos (by omega)]
  · rw [if_neg h, if_neg (by omega)]

end AlgorithmFacts

/-! ## Index-wise view of inserting into and erasing from a list -/

theorem insert_getElem? {α : Type} (l : List α) (p : Nat) (x : α) (hp : p ≤ l.length) (i : Nat) :
    (l.take p ++ [x] ++ l.drop p)[i]? =
      if i < p then l[i]? else if i = p then some x else l[i - 1]? := by
  have hlen : (l.take p).length = p := by rw [List.length_take]; omega
  by_cases h1 : i < p
  · rw [if_pos h1, List.append_assoc, List.getElem?_append_left (by omega),
      List.getElem?_take_of_lt h1]
  · rw [if_neg h1, List.append_assoc, List.getElem?_append_right (by omega), hlen]
    by_cases h2 : i = p
    · subst h2
      rw [if_pos rfl]
      simp
    · rw [if_neg h2]
      obtain ⟨k, hk⟩ : ∃ k, i - p = k + 1 := ⟨i - p - 1, by omega⟩
      rw [hk, List.singleton_append, List.getElem?_cons_succ, List.getElem?_drop]
      congr 1
      omega

theorem erase_getElem? {α : Type} (l : List α) (p : Nat) (hp : p ≤ l.length) (i : Nat) :
    (l.take p ++ l.drop (p + 1))[i]? = if i < p then l[i]? else l[i + 1]? := by
  have hlen : (l.take p).length = p := by rw [List.length_take]; omega
  by_cases h1 : i < p
  · rw [if_pos h1, List.getElem?_append_left (by omega), List.getElem?_take_of_lt h1]
  · rw [if_neg h1, List.getElem?_append_right (by omega), hlen, List.getElem?_drop]
    congr 1
    omega

/-! ## Size arithmetic -/

theorem size_t_of_lt {n : Nat} (h : n < SIZE_T_MOD) : size_t n = n :=
  Nat.mod_eq_of_lt h

theorem SIZE_T_MOD_eq : SIZE_T_MOD = 18446744073709551616 := by
  unfold SIZE_T_MOD
  norm_num

/-! ## PushBack -/

namespace SimpleVector

variable {α : Type}

theorem PushBack_move_eq [Inhabited α] (v : SimpleVector α) (item : α) :
    PushBack_move v item = PushBack v item := rfl

theorem toList_length (v : SimpleVector α) (h : v.size_ ≤ v.items_.slots.length) :
    v.toList.length = v.size_ := by
  unfold toList
  rw [List.length_take]
  omega

theorem toList_getElem? (v : SimpleVector α) (i : Nat) :
    v.toList[i]? = if i < v.size_ then v.items_.slots[i]? else none := by
  unfold toList
  rw [List.getElem?_take]

/-- What `PushBack` does to a vector whose block has `capacity_` slots; the doubling
must fit a `size_t` only when the vector is full. -/
theorem PushBack_spec_full [Inhabited α] (v : SimpleVector α) (item : α)
    (hsz : v.size_ ≤ v.capacity_) (hblk : v.items_.slots.length = v.capacity_)
    (hinc : v.size_ + 1 < SIZE_T_MOD)
    (hfit : v.size_ = v.capacity_ → 2 * v.capacity_ < SIZE_T_MOD) :
    ∃ w, PushBack v item = .ok w ∧ w.size_ = v.size_ + 1 ∧
      w.capacity_ = (if v.size_ < v.capacity_ then v.capacity_ else max 1 (2 * v.capacity_)) ∧
      w.items_.slots.length = w.capacity_ ∧ w.toList = v.toList ++ [item] := by
  have hs1 : size_t (v.size_ + 1) = v.size_ + 1 := size_t_of_lt hinc
  by_cases hlt : v.size_ < v.capacity_
  · obtain ⟨items, hw, hslots⟩ := ArrayPtr.write_of_lt (p := v.items_) item
      (show v.size_ < v.items_.slots.length by omega)
    refine ⟨{ v with items_ := items, size_ := v.size_ + 1 }, ?_, rfl, ?_, ?_, ?_⟩
    · simp only [PushBack, if_pos hlt, hw, hs1]
    · rw [if_pos hlt]
    · simp only [hslots, List.length_set, hblk]
    · apply List.ext_getElem?
      intro i
      rw [toList_getElem?, List.getElem?_append, toList_length v (by omega), toList_getElem?]
      simp only [hslots, List.getElem?_set]
      by_cases h1 : i < v.size_
      · rw [if_pos (by omega), if_neg (by omega), if_pos h1, if_pos h1]
      · rw [if_neg h1]
        by_cases h2 : i = v.size_
        · subst h2
          rw [if_pos (by omega), if_pos rfl, if_pos (by omega)]
          simp
        · rw [if_neg (by omega)]
          have : 0 < i - v.size_ := by omega
          rw [List.getElem?_eq_none (by simp; omega)]
  · have hcap : v.size_ = v.capacity_ := by omega
    have hc2 : size_t (2 * v.capacity_) = 2 * v.capacity_ := size_t_of_lt (hfit hcap)
    obtain ⟨nv, hcopy, hlen, hget⟩ := std_copy_spec v.items_ 0 v.size_
      (ArrayPtr.alloc (max 1 (2 * v.capacity_))) 0 (by omega) (by omega)
      (by rw [ArrayPtr.slots_alloc, List.length_replicate]; omega)
    rw [ArrayPtr.slots_alloc, List.length_replicate] at hlen
    obtain ⟨nv2, hw, hslots⟩ := ArrayPtr.write_of_lt (p := nv) item
      (show v.size_ < nv.slots.length by omega)
    refine ⟨⟨nv2, v.size_ + 1, max 1 (2 * v.capacity_)⟩, ?_, rfl, ?_, ?_, ?_⟩
    · simp only [PushBack, if_neg hlt, hc2, hcopy, hw, hs1]
    · rw [if_neg hlt]
    · simp only [hslots, List.length_set, hlen]
    · apply List.ext_getElem?
      intro i
      rw [toList_getElem?, List.getElem?_append, toList_length v (by omega), toList_getElem?]
      simp only [hslots, List.getElem?_set, hget]
      by_cases h1 : i < v.size_
      · rw [if_pos (by omega), if_neg (by omega), if_pos h1, if_pos h1, if_pos (by omega)]
        simp
      · rw [if_neg h1]
        by_cases h2 : i = v.size_
        · subst h2
          rw [if_pos (by omega), if_pos rfl, if_pos (by omega)]
          simp
        · rw [if_neg (by omega)]
          have : 0 < i - v.size_ := by omega
          rw [List.getElem?_eq_none (by simp; omega)]

/-- What `PushBack` does when doubling the capacity fits a `size_t`. -/
theorem PushBack_spec [Inhabited α] (v : SimpleVector α) (item : α)
    (hsz : v.size_ ≤ v.capacity_) (hblk : v.items_.slots.length = v.capacity_)
    (hfit : 2 * v.capacity_ < SIZE_T_MOD) :
    ∃ w, PushBack v item = .ok w ∧ w.size_ = v.size_ + 1 ∧
      w.capacity_ = (if v.size_ < v.capacity_ then v.capacity_ else max 1 (2 * v.capacity_)) ∧
      w.items_.slots.length = w.capacity_ ∧ w.toList = v.toList ++ [item] := by
  have hM := SIZE_T_MOD_eq
  exact PushBack_spec_full v item hsz hblk (by omega) (fun _ => hfit)

theorem index_of_toList {v : SimpleVector α} {i : Nat} {x : α} (h : v.toList[i]? = some x) :
    v.index i = .ok x := by
  rw [toList_getElem?] at h
  by_cases hi : i < v.size_
  · rw [if_pos hi] at h
    unfold index
    rw [if_pos hi]
    exact ArrayPtr.read_of_getElem? h
  · rw [if_neg hi] at h
    cases h

theorem At_of_toList {v : SimpleVector α} {i : Nat} {x : α} (h : v.toList[i]? = some x) :
    v.At i = (.ok x, v) := by
  rw [toList_getElem?] at h
  by_cases hi : i < v.size_
  · rw [if_pos hi] at h
    unfold At
    rw [if_neg (by omega), ArrayPtr.read_of_getElem? h]
  · rw [if_neg hi] at h
    cases h

theorem push_each_spec [Inhabited α] :
    ∀ (calls : List (Bool × α)) (v : SimpleVector α),
      v.size_ ≤ v.capacity_ → v.items_.slots.length = v.capacity_ →
      (v.capacity_ = 0 ∨ v.capacity_ < 2 * v.size_) →
      2 * (v.size_ + calls.length) ≤ SIZE_T_MOD →
      ∃ w, push_each v calls = .ok w ∧ w.size_ = v.size_ + calls.length ∧
        w.size_ ≤ w.capacity_ ∧ w.items_.slots.length = w.capacity_ ∧
        (w.capacity_ = 0 ∨ w.capacity_ < 2 * w.size_) ∧
        w.toList = v.toList ++ calls.map Prod.snd := by
  intro calls
  induction calls with
  | nil =>
    intro v hsz hblk hcap _
    exact ⟨v, rfl, rfl, hsz, hblk, hcap, by simp⟩
  | cons c rest ih =>
    intro v hsz hblk hcap hlen
    obtain ⟨rvalue, x⟩ := c
    have hM := SIZE_T_MOD_eq
    simp only [List.length_cons] at hlen
    obtain ⟨w1, hpush, hs1, hc1, hb1, hl1⟩ :=
      PushBack_spec_full v x hsz hblk (by omega) (by intro _; omega)
    have hcall : (if rvalue then PushBack_move v x else PushBack v x) = .ok w1 := by
      cases rvalue
      · simpa using hpush
      · simpa [PushBack_move_eq] using hpush
    have hsz1 : w1.size_ ≤ w1.capacity_ := by
      rw [hs1, hc1]; split <;> omega
    have hcap1 : w1.capacity_ = 0 ∨ w1.capacity_ < 2 * w1.size_ := by
      rw [hs1, hc1]; split <;> omega
    obtain ⟨w, hrun, hs, hsz2, hb, hcap2, hl⟩ := ih w1 hsz1 hb1 hcap1 (by rw [hs1]; omega)
    refine ⟨w, ?_, ?_, hsz2, hb, hcap2, ?_⟩
    · simp only [push_each, hcall, hrun]
    · rw [hs, hs1, List.length_cons]; omega
    · rw [hl, hl1]; simp

/-! ### Insert (moving overload) and Erase -/

/-- What `Insert(ConstIterator, Type&&)` does at a position in `[0, size_]`. -/
theorem Insert_move_spec [Inhabited α] (v : SimpleVector α) (pos : Nat) (item : α)
    (hsz : v.size_ ≤ v.capacity_) (hblk : v.items_.slots.length = v.capacity_)
    (hfit : 2 * v.capacity_ < SIZE_T_MOD) (hpos : pos ≤ v.size_) :
    ∃ w, Insert_move v pos item = .ok (pos, w) ∧ w.size_ = v.size_ + 1 ∧
      w.capacity_ = (if v.size_ < v.capacity_ then v.capacity_ else max 1 (2 * v.capacity_)) ∧
      w.items_.slots.length = w.capacity_ ∧
      w.toList = v.toList.take pos ++ [item] ++ v.toList.drop pos := by
  have hM := SIZE_T_MOD_eq
  have hs1 : size_t (v.size_ + 1) = v.size_ + 1 := size_t_of_lt (by omega)
  have hc2 : size_t (2 * v.capacity_) = 2 * v.capacity_ := size_t_of_lt hfit
  have htl : v.toList.length = v.size_ := toList_length v (by omega)
  by_cases hlt : v.size_ < v.capacity_
  · obtain ⟨r, hmv, hlen, hget⟩ := std_copy_backward_within_spec v.items_ pos v.size_
      (v.size_ + 1) hpos (by omega) (by omega)
    obtain ⟨r2, hw, hslots⟩ := ArrayPtr.write_of_lt (p := r) item
      (show pos < r.slots.length by omega)
    refine ⟨{ v with items_ := r2, size_ := v.size_ + 1 }, ?_, rfl, ?_, ?_, ?_⟩
    · simp only [Insert_move, std_move_backward_within, if_pos hpos, if_pos hlt, hs1, hmv, hw]
    · rw [if_pos hlt]
    · simp only [hslots, List.length_set, hlen, hblk]
    · apply List.ext_getElem?
      intro i
      rw [insert_getElem? _ _ _ (by omega), toList_getElem?]
      simp only [hslots, List.getElem?_set, hget, toList_getElem?]
      by_cases h1 : i < pos
      · rw [if_pos (by omega), if_neg (by omega), if_neg (by omega), if_pos h1, if_pos (by omega)]
      · rw [if_neg h1]
        by_cases h2 : i = pos
        · subst h2
          rw [if_pos (by omega), if_pos rfl, if_pos (by omega), if_pos rfl]
        · rw [if_neg h2]
          by_cases h3 : i < v.size_ + 1
          · rw [if_pos h3, if_neg (by omega), if_pos (by omega), if_pos (by omega)]
            congr 1
            omega
          · rw [if_neg h3, if_neg (by omega)]
  · have hcap : v.size_ = v.capacity_ := by omega
    obtain ⟨a1, hcopy, hlen1, hget1⟩ := std_copy_spec v.items_ 0 pos
      (ArrayPtr.alloc (max 1 (2 * v.capacity_))) 0 (by omega) (by omega)
      (by rw [ArrayPtr.slots_alloc, List.length_replicate]; omega)
    rw [ArrayPtr.slots_alloc, List.length_replicate] at hlen1
    obtain ⟨a2, hback, hlen2, hget2⟩ := std_copy_backward_spec v.items_ pos v.size_ a1
      (v.size_ + 1) hpos (by omega) (by omega) (by omega)
    obtain ⟨a3, hw, hslots⟩ := ArrayPtr.write_of_lt (p := a2) item
      (show pos < a2.slots.length by omega)
    refine ⟨⟨a3, v.size_ + 1, max 1 (2 * v.capacity_)⟩, ?_, rfl, ?_, ?_, ?_⟩
    · simp only [Insert_move, std_move, std_move_backward, if_pos hpos, if_neg hlt, hs1, hc2,
        hcopy, hback, hw]
    · rw [if_neg hlt]
    · simp only [hslots, List.length_set, hlen2, hlen1]
    · apply List.ext_getElem?
      intro i
      rw [insert_getElem? _ _ _ (by omega), toList_getElem?]
      simp only [hslots, List.getElem?_set, hget2, hget1, toList_getElem?]
      by_cases h1 : i < pos
      · rw [if_pos (by omega), if_neg (by omega), if_neg (by omega), if_pos (by omega),
          if_pos h1, if_pos (by omega)]
        simp
      · rw [if_neg h1]
        by_cases h2 : i = pos
        · subst h2
          rw [if_pos (by omega), if_pos rfl, if_pos (by omega), if_pos rfl]
        · rw [if_neg h2]
          by_cases h3 : i < v.size_ + 1
          · rw [if_pos h3, if_neg (by omega), if_pos (by omega), if_pos (by omega)]
            congr 1
            omega
          · rw [if_neg h3, if_neg (by omega)]

/-- What `Erase` does at a position in `[0, size_)`. -/
theorem Erase_spec (v : SimpleVector α) (pos : Nat)
    (hsz : v.size_ ≤ v.capacity_) (hblk : v.items_.slots.length = v.capacity_)
    (hpos : pos < v.size_) :
    ∃ w, Erase v pos = .ok (pos, w) ∧ w.size_ = v.size_ - 1 ∧
      w.capacity_ = v.capacity_ ∧ w.items_.slots.length = w.capacity_ ∧
      w.toList = v.toList.take pos ++ v.toList.drop (pos + 1) := by
  have htl : v.toList.length = v.size_ := toList_length v (by omega)
  obtain ⟨r, hmv, hlen, hget⟩ := std_move_within_spec v.items_ (pos + 1) v.size_ pos
    (by omega) (by omega) (by omega)
  refine ⟨{ v with items_ := r, size_ := v.size_ - 1 }, ?_, rfl, rfl, ?_, ?_⟩
  · simp only [Erase, if_pos hpos, hmv]
  · simp only [hlen, hblk]
  · apply List.ext_getElem?
    intro i
    rw [erase_getElem? _ _ (by omega), toList_getElem?]
    simp only [hget, toList_getElem?]
    by_cases h1 : i < pos
    · rw [if_pos (by omega), if_neg (by omega), if_pos h1, if_pos (by omega)]
    · rw [if_neg h1]
      by_cases h3 : i < v.size_ - 1
      · rw [if_pos h3, if_pos (by omega), if_pos (by omega)]
        congr 1
        omega
      · rw [if_neg h3, if_neg (by omega)]

/-- Erasing at the position where an element was just inserted gives back the list. -/
theorem take_drop_insert {α : Type} (l : List α) (p : Nat) (x : α) (hp : p ≤ l.length) :
    (l.take p ++ [x] ++ l.drop p).take p ++ (l.take p ++ [x] ++ l.drop p).drop (p + 1) = l := by
  have hlen : (l.take p ++ [x] ++ l.drop p).length = l.length + 1 := by
    simp only [List.length_append, List.length_take, List.length_drop, List.length_singleton]
    omega
  apply List.ext_getElem?
  intro i
  rw [erase_getElem? _ _ (by omega)]
  by_cases h1 : i < p
  · rw [if_pos h1, insert_getElem? _ _ _ hp, if_pos h1]
  · rw [if_neg h1, insert_getElem? _ _ _ hp, if_neg (by omega), if_neg (by omega)]
    congr 1

/-! ### Resize and Reserve -/

theorem sized_spec [Inhabited α] (n : Nat) :
    ∃ w : SimpleVector α, sized n = .ok w ∧ w.size_ = n ∧ w.capacity_ = n ∧
      w.items_.slots.length = n := by
  obtain ⟨r, hfill, hlen, _⟩ := std_fill_spec (ArrayPtr.alloc n : ArrayPtr α) 0 n default
    (Nat.zero_le _) (by rw [ArrayPtr.slots_alloc, List.length_replicate])
  rw [ArrayPtr.slots_alloc, List.length_replicate] at hlen
  exact ⟨⟨r, n, n⟩, by simp only [sized, sized_value, hfill], rfl, rfl, hlen⟩

/-- What `Reserve` does when it has to reallocate. -/
theorem Reserve_grow_spec [Inhabited α] (v : SimpleVector α) (n : Nat)
    (hsz : v.size_ ≤ v.capacity_) (hblk : v.items_.slots.length = v.capacity_)
    (hn : v.capacity_ < n) :
    ∃ w, Reserve v n = .ok w ∧ w.size_ = v.size_ ∧ w.capacity_ = n ∧
      w.items_.slots.length = n ∧ w.toList = v.toList := by
  obtain ⟨nv, hnv, _, hnc, hnl⟩ := sized_spec (α := α) n
  obtain ⟨r, hcopy, hlen, hget⟩ := std_copy_spec v.items_ 0 v.size_ nv.items_ 0
    (Nat.zero_le _) (by omega) (by omega)
  refine ⟨{ nv with items_ := r, size_ := v.size_ }, ?_, rfl, hnc, by simp only [hlen, hnl], ?_⟩
  · simp only [Reserve, if_pos hn, hnv, hcopy]
  · apply List.ext_getElem?
    intro i
    rw [toList_getElem?, toList_getElem?]
    simp only [hget]
    by_cases h1 : i < v.size_
    · rw [if_pos h1, if_pos h1, if_pos (by omega)]
      simp
    · rw [if_neg h1, if_neg h1]

theorem Reserve_noop [Inhabited α] (v : SimpleVector α) (n : Nat) (hn : n ≤ v.capacity_) :
    Reserve v n = .ok v := by
  simp only [Reserve, if_neg (show ¬ v.capacity_ < n by omega)]

/-- Pushing into reserved room never reallocates. -/
theorem push_each_reserved [Inhabited α] :
    ∀ (calls : List (Bool × α)) (v : SimpleVector α),
      v.items_.slots.length = v.capacity_ → v.size_ + calls.length ≤ v.capacity_ →
      v.capacity_ < SIZE_T_MOD →
      ∃ w, push_each v calls = .ok w ∧ w.size_ = v.size_ + calls.length ∧
        w.capacity_ = v.capacity_ ∧ w.toList = v.toList ++ calls.map Prod.snd := by
  intro calls
  induction calls with
  | nil =>
    intro v _ _ _
    exact ⟨v, rfl, rfl, rfl, by simp⟩
  | cons c rest ih =>
    intro v hblk hroom hcap
    obtain ⟨rvalue, x⟩ := c
    simp only [List.length_cons] at hroom
    obtain ⟨w1, hpush, hs1, hc1, hb1, hl1⟩ :=
      PushBack_spec_full v x (by omega) hblk (by omega) (by intro _; omega)
    rw [if_pos (by omega)] at hc1
    have hcall : (if rvalue then PushBack_move v x else PushBack v x) = .ok w1 := by
      cases rvalue
      · simpa using hpush
      · simpa [PushBack_move_eq] using hpush
    obtain ⟨w, hrun, hs, hc, hl⟩ := ih w1 hb1 (by rw [hs1, hc1]; omega) (by rw [hc1]; exact hcap)
    refine ⟨w, ?_, ?_, by rw [hc, hc1], ?_⟩
    · simp only [push_each, hcall, hrun]
    · rw [hs, hs1, List.length_cons]; omega
    · rw [hl, hl1]; simp

theorem read_ne_out_of_range (p : ArrayPtr α) (i : Nat) : p.read i ≠ .error .out_of_range := by
  by_cases h : i < p.slots.length
  · rw [ArrayPtr.read_of_lt h]
    intro hc
    cases hc
  · rw [ArrayPtr.read_of_ge (by omega)]
    intro hc
    cases hc

/-- The copying `Insert` agrees with the moving one when there is room or the position
is `end()`. -/
theorem Insert_eq_Insert_move [Inhabited α] (v : SimpleVector α) (pos : Nat) (item : α)
    (h : v.size_ < v.capacity_ ∨ pos = v.size_) :
    Insert v pos item = Insert_move v pos item := by
  by_cases hlt : v.size_ < v.capacity_
  · simp only [Insert, Insert_move, if_pos hlt, std_move_backward_within]
  · have hp : pos = v.size_ := by
      cases h with
      | inl h1 => exact absurd h1 hlt
      | inr h2 => exact h2
    subst hp
    rfl

/-- What `Resize` does when it has to reallocate. -/
theorem Resize_grow_spec [Inhabited α] (v : SimpleVector α) (n : Nat)
    (hsz : v.size_ ≤ v.capacity_) (hblk : v.size_ ≤ v.items_.slots.length)
    (hn : v.capacity_ < n) :
    ∃ w, Resize v n = .ok w ∧ w.size_ = n ∧
      w.capacity_ = max n (size_t (2 * v.capacity_)) ∧ w.items_.slots.length = w.capacity_ ∧
      w.toList = v.toList ++ List.replicate (n - v.size_) default := by
  have htl : v.toList.length = v.size_ := toList_length v hblk
  obtain ⟨r1, hmv, hlen1, hget1⟩ := std_copy_spec v.items_ 0 v.size_
    (ArrayPtr.alloc (max n (size_t (2 * v.capacity_)))) 0 (Nat.zero_le _) hblk
    (by rw [ArrayPtr.slots_alloc, List.length_replicate]; omega)
  rw [ArrayPtr.slots_alloc, List.length_replicate] at hlen1
  obtain ⟨r2, hfill, hlen2, hget2⟩ := std_fill_spec r1 v.size_ n default (by omega) (by omega)
  refine ⟨⟨r2, n, max n (size_t (2 * v.capacity_))⟩, ?_, rfl, rfl, by simp only [hlen2, hlen1],
    ?_⟩
  · simp only [Resize, if_pos (show n > v.capacity_ from hn), std_move, hmv, hfill]
  · apply List.ext_getElem?
    intro i
    rw [toList_getElem?, List.getElem?_append, htl, toList_getElem?, List.getElem?_replicate]
    simp only [hget2, hget1]
    by_cases h1 : i < v.size_
    · rw [if_pos h1, if_pos h1, if_pos (by omega), if_neg (by omega), if_pos (by omega)]
      simp
    · rw [if_neg h1]
      by_cases h2 : i < n
      · rw [if_pos h2, if_pos (by omega), if_pos (by omega)]
      · rw [if_neg h2, if_neg (by omega)]

end SimpleVector

/-! ## Comparison of sequences -/

theorem drop_take_succ {α : Type} (l : List α) (f n : Nat) (h : f < l.length) :
    (l.drop f).take (n + 1) = l[f] :: (l.drop (f + 1)).take n := by
  rw [List.drop_eq_getElem_cons h, List.take_succ_cons]

theorem lex_precedes_cons_cons {α : Type} [LinearOrder α] (x : α) (xs ys : List α) :
    SimpleVector.lex_precedes (x :: xs) (x :: ys) ↔ SimpleVector.lex_precedes xs ys := by
  unfold SimpleVector.lex_precedes
  constructor
  · rintro (⟨i, a, b, ha, hb, hlt, hpre⟩ | ⟨hlen, hpre⟩)
    · cases i with
      | zero =>
        simp only [List.getElem?_cons_zero, Option.some.injEq] at ha hb
        subst ha; subst hb
        exact absurd hlt (lt_irrefl _)
      | succ i =>
        left
        refine ⟨i, a, b, by simpa using ha, by simpa using hb, hlt, ?_⟩
        intro j hj
        simpa using hpre (j + 1) (by omega)
    · right
      refine ⟨by simpa using hlen, ?_⟩
      intro j hj
      simpa using hpre (j + 1) (by simp; omega)
  · rintro (⟨i, a, b, ha, hb, hlt, hpre⟩ | ⟨hlen, hpre⟩)
    · left
      refine ⟨i + 1, a, b, by simpa using ha, by simpa using hb, hlt, ?_⟩
      intro j hj
      cases j with
      | zero => simp
      | succ j => simpa using hpre j (by omega)
    · right
      refine ⟨by simpa using hlen, ?_⟩
      intro j hj
      cases j with
      | zero => simp
      | succ j => simpa using hpre j (by simp at hj; omega)

theorem lex_precedes_cons_lt {α : Type} [LinearOrder α] (x y : α) (xs ys : List α) (h : x < y) :
    SimpleVector.lex_precedes (x :: xs) (y :: ys) :=
  Or.inl ⟨0, x, y, by simp, by simp, h, by intro j hj; omega⟩

theorem not_lex_precedes_cons_ne {α : Type} [LinearOrder α] (x y : α) (xs ys : List α)
    (h : ¬ x < y) (hne : x ≠ y) : ¬ SimpleVector.lex_precedes (x :: xs) (y :: ys) := by
  unfold SimpleVector.lex_precedes
  rintro (⟨i, a, b, ha, hb, hlt, hpre⟩ | ⟨hlen, hpre⟩)
  · cases i with
    | zero =>
      simp only [List.getElem?_cons_zero, Option.some.injEq] at ha hb
      subst ha; subst hb
      exact h hlt
    | succ i =>
      have h0 := hpre 0 (by omega)
      simp only [List.getElem?_cons_zero, Option.some.injEq] at h0
      exact hne h0
  · have h0 := hpre 0 (by simp)
    simp only [List.getElem?_cons_zero, Option.some.injEq] at h0
    exact hne h0

theorem lex_lt_list_iff {α : Type} [LinearOrder α] :
    ∀ xs ys : List α, SimpleVector.lex_lt_list xs ys = true ↔ SimpleVector.lex_precedes xs ys := by
  intro xs
  induction xs with
  | nil =>
    intro ys
    cases ys with
    | nil =>
      simp only [SimpleVector.lex_lt_list, SimpleVector.lex_precedes]
      constructor
      · intro h; cases h
      · rintro (⟨i, a, b, ha, _⟩ | ⟨hlen, _⟩)
        · simp at ha
        · simp at hlen
    | cons y ys =>
      simp only [SimpleVector.lex_lt_list, SimpleVector.lex_precedes, true_iff]
      right
      exact ⟨by simp, by intro j hj; simp at hj⟩
  | cons x xs ih =>
    intro ys
    cases ys with
    | nil =>
      simp only [SimpleVector.lex_lt_list, SimpleVector.lex_precedes]
      constructor
      · intro h; cases h
      · rintro (⟨i, a, b, _, hb, _⟩ | ⟨hlen, _⟩)
        · simp at hb
        · simp at hlen
    | cons y ys =>
      simp only [SimpleVector.lex_lt_list]
      by_cases h1 : x < y
      · rw [if_pos h1]
        simp only [true_iff]
        exact lex_precedes_cons_lt x y xs ys h1
      · rw [if_neg h1]
        by_cases h2 : y < x
        · rw [if_pos h2]
          constructor
          · intro h; cases h
          · intro h
            exact absurd h (not_lex_precedes_cons_ne x y xs ys h1 (ne_of_gt h2))
        · rw [if_neg h2]
          have hxy : x = y := le_antisymm (not_lt.mp h2) (not_lt.mp h1)
          subst hxy
          rw [ih ys, lex_precedes_cons_cons]


section CompareFacts

variable {α : Type}

theorem std_equal_loop_spec [DecidableEq α] (a b : ArrayPtr α) :
    ∀ (n first1 first2 : Nat),
      first1 + n ≤ a.slots.length → first2 + n ≤ b.slots.length →
      std_equal_loop a b n first1 first2 =
        .ok (decide ((a.slots.drop first1).take n = (b.slots.drop first2).take n)) := by
  intro n
  induction n with
  | zero =>
    intro first1 first2 _ _
    simp [std_equal_loop]
  | succ n ih =>
    intro first1 first2 h1 h2
    have ha : first1 < a.slots.length := by omega
    have hb : first2 < b.slots.length := by omega
    rw [drop_take_succ _ _ _ ha, drop_take_succ _ _ _ hb]
    simp only [std_equal_loop, ArrayPtr.read_of_lt ha, ArrayPtr.read_of_lt hb]
    by_cases hxy : a.slots[first1] = b.slots[first2]
    · rw [if_pos hxy, ih (first1 + 1) (first2 + 1) (by omega) (by omega)]
      simp [hxy]
    · rw [if_neg hxy]
      simp [hxy]

theorem std_lexicographical_compare_loop_spec [LT α] [DecidableRel (fun x y : α => x < y)]
    (a b : ArrayPtr α) :
    ∀ (n1 n2 first1 first2 : Nat),
      first1 + n1 ≤ a.slots.length → first2 + n2 ≤ b.slots.length →
      std_lexicographical_compare_loop a b n1 n2 first1 first2 =
        .ok (SimpleVector.lex_lt_list ((a.slots.drop first1).take n1)
          ((b.slots.drop first2).take n2)) := by
  intro n1
  induction n1 with
  | zero =>
    intro n2 first1 first2 _ h2
    cases n2 with
    | zero => simp [std_lexicographical_compare_loop, SimpleVector.lex_lt_list]
    | succ n2 =>
      rw [drop_take_succ _ _ _ (show first2 < b.slots.length by omega)]
      simp [std_lexicographical_compare_loop, SimpleVector.lex_lt_list]
  | succ n1 ih =>
    intro n2 first1 first2 h1 h2
    have ha : first1 < a.slots.length := by omega
    cases n2 with
    | zero =>
      rw [drop_take_succ _ _ _ ha]
      simp [std_lexicographical_compare_loop, SimpleVector.lex_lt_list]
    | succ n2 =>
      have hb : first2 < b.slots.length := by omega
      rw [drop_take_succ _ _ _ ha, drop_take_succ _ _ _ hb]
      simp only [std_lexicographical_compare_loop, ArrayPtr.read_of_lt ha,
        ArrayPtr.read_of_lt hb, SimpleVector.lex_lt_list]
      by_cases hlt : a.slots[first1] < b.slots[first2]
      · rw [if_pos hlt, if_pos hlt]
      · rw [if_neg hlt, if_neg hlt]
        by_cases hgt : b.slots[first2] < a.slots[first1]
        · rw [if_pos hgt, if_pos hgt]
        · rw [if_neg hgt, if_neg hgt]
          exact ih n2 (first1 + 1) (first2 + 1) (by omega) (by omega)

end CompareFacts

namespace SimpleVector

variable {α : Type}

/-- `operator==` on vectors whose blocks hold their elements decides equality of the
logical sequences. -/
theorem operator_eq_spec [DecidableEq α] (a b : SimpleVector α)
    (ha : a.size_ ≤ a.items_.slots.length) (hb : b.size_ ≤ b.items_.slots.length) :
    operator_eq a b = .ok (decide (a.toList = b.toList)) := by
  unfold operator_eq std_equal
  rw [if_neg (by omega)]
  simp only [Nat.sub_zero]
  by_cases hs : a.size_ = b.size_
  · rw [if_neg (by simpa using hs), std_equal_loop_spec a.items_ b.items_ a.size_ 0 0
      (by omega) (by omega)]
    simp only [List.drop_zero, toList, hs]
  · rw [if_pos hs]
    have hne : a.toList ≠ b.toList := by
      intro h
      have hl := congrArg List.length h
      rw [toList_length a ha, toList_length b hb] at hl
      exact hs hl
    simp [hne]

/-- `operator<` on vectors whose blocks hold their elements is the lexicographic comparison
of the logical sequences. -/
theorem operator_lt_spec [LT α] [DecidableRel (fun x y : α => x < y)] (a b : SimpleVector α)
    (ha : a.size_ ≤ a.items_.slots.length) (hb : b.size_ ≤ b.items_.slots.length) :
    operator_lt a b = .ok (lex_lt_list a.toList b.toList) := by
  unfold operator_lt std_lexicographical_compare
  rw [if_neg (by omega)]
  simp only [Nat.sub_zero]
  rw [std_lexicographical_compare_loop_spec a.items_ b.items_ a.size_ b.size_ 0 0
    (by omega) (by omega)]
  simp only [List.drop_zero, toList]

end SimpleVector

/-! ## Constructors, assignment and the remaining mutators -/

namespace SimpleVector

variable {α : Type}

theorem index_of_lt (v : SimpleVector α) (i : Nat) (hi : i < v.size_)
    (hlt : i < v.items_.slots.length) :
    v.index i = .ok v.items_.slots[i] := by
  simp only [index, if_pos hi]
  exact ArrayPtr.read_of_lt hlt

/-- Two vectors whose blocks hold their elements have the same logical sequence exactly
when they have the same size and `operator[]` agrees at every index below it. -/
theorem toList_eq_iff (a b : SimpleVector α)
    (ha : a.size_ ≤ a.items_.slots.length) (hb : b.size_ ≤ b.items_.slots.length) :
    a.toList = b.toList ↔ a.size_ = b.size_ ∧ ∀ i, i < a.size_ → a.index i = b.index i := by
  constructor
  · intro h
    have hs : a.size_ = b.size_ := by
      have hl := congrArg List.length h
      rwa [toList_length a ha, toList_length b hb] at hl
    refine ⟨hs, ?_⟩
    intro i hi
    have hg : a.toList[i]? = b.toList[i]? := by rw [h]
    rw [toList_getElem?, toList_getElem?, if_pos hi, if_pos (by omega),
      List.getElem?_eq_getElem (by omega), List.getElem?_eq_getElem (by omega)] at hg
    rw [index_of_lt a i hi (by omega), index_of_lt b i (by omega) (by omega)]
    congr 1
    exact Option.some.inj hg
  · rintro ⟨hs, hidx⟩
    apply List.ext_getElem?
    intro i
    rw [toList_getElem?, toList_getElem?]
    by_cases hi : i < a.size_
    · rw [if_pos hi, if_pos (by omega), List.getElem?_eq_getElem (by omega),
        List.getElem?_eq_getElem (by omega)]
      have h := hidx i hi
      rw [index_of_lt a i hi (by omega), index_of_lt b i (by omega) (by omega)] at h
      congr 1
      exact Except.ok.inj h
    · rw [if_neg hi, if_neg (by omega)]

/-- What the copy constructor builds. -/
theorem copy_ctor_spec [Inhabited α] (other : SimpleVector α)
    (hblk : other.size_ ≤ other.items_.slots.length) :
    ∃ w, copy_ctor other = .ok w ∧ w.size_ = other.size_ ∧ w.capacity_ = other.size_ ∧
      w.items_.slots.length = other.size_ ∧ w.toList = other.toList := by
  obtain ⟨r, hcopy, hlen, hget⟩ := std_copy_spec other.items_ 0 other.size_
    (ArrayPtr.alloc other.size_) 0 (Nat.zero_le _) hblk
    (by rw [ArrayPtr.slots_alloc, List.length_replicate]; omega)
  rw [ArrayPtr.slots_alloc, List.length_replicate] at hlen
  refine ⟨⟨r, other.size_, other.size_⟩, ?_, rfl, rfl, hlen, ?_⟩
  · simp only [copy_ctor, hcopy]
  · apply List.ext_getElem?
    intro i
    rw [toList_getElem?, toList_getElem?]
    simp only [hget]
    by_cases h1 : i < other.size_
    · rw [if_pos h1, if_pos h1, if_pos (by omega)]
      simp
    · rw [if_neg h1, if_neg h1]

theorem move_assign_eq [Inhabited α] (this rhs : SimpleVector α) (self_assignment : Bool) :
    move_assign this rhs self_assignment = copy_assign this rhs self_assignment := rfl

theorem copy_assign_empty [Inhabited α] (this rhs : SimpleVector α) (h : rhs.size_ = 0) :
    copy_assign this rhs false = .ok (Clear this) := by
  simp [copy_assign, IsEmpty, h]

/-- What the assignment from a non-empty vector leaves in the destination: a block of
`rhs.size_` slots under the capacity field of `rhs`. -/
theorem copy_assign_spec [Inhabited α] (this rhs : SimpleVector α)
    (hblk : rhs.size_ ≤ rhs.items_.slots.length) (hne : rhs.size_ ≠ 0) :
    ∃ w, copy_assign this rhs false = .ok w ∧ w.size_ = rhs.size_ ∧
      w.capacity_ = rhs.capacity_ ∧ w.items_.slots.length = rhs.size_ ∧
      w.toList = rhs.toList := by
  obtain ⟨nv, hnv, hns, _, hnl⟩ := sized_spec (α := α) rhs.size_
  obtain ⟨r, hcopy, hlen, hget⟩ := std_copy_spec rhs.items_ 0 rhs.size_ nv.items_ 0
    (Nat.zero_le _) hblk (by omega)
  refine ⟨⟨r, nv.size_, rhs.capacity_⟩, ?_, hns, rfl, by simp only [hlen, hnl], ?_⟩
  · simp [copy_assign, IsEmpty, hne, hnv, hcopy, swap, ArrayPtr.swap]
  · apply List.ext_getElem?
    intro i
    rw [toList_getElem?, toList_getElem?]
    simp only [hget, hns]
    by_cases h1 : i < rhs.size_
    · rw [if_pos h1, if_pos h1, if_pos (by omega)]
      simp
    · rw [if_neg h1, if_neg h1]

/-- The copying `Insert` at a position in `[0, size_]` returns with the size and capacity
of the moving one. -/
theorem Insert_ok_spec [Inhabited α] (v : SimpleVector α) (pos : Nat) (item : α)
    (hsz : v.size_ ≤ v.capacity_) (hblk : v.items_.slots.length = v.capacity_)
    (hfit : 2 * v.capacity_ < SIZE_T_MOD) (hpos : pos ≤ v.size_) :
    ∃ w, Insert v pos item = .ok (pos, w) ∧ w.size_ = v.size_ + 1 ∧
      w.capacity_ = (if v.size_ < v.capacity_ then v.capacity_ else max 1 (2 * v.capacity_)) ∧
      w.items_.slots.length = w.capacity_ := by
  by_cases hlt : v.size_ < v.capacity_
  · obtain ⟨w, hrun, hs, hc, hb, _⟩ := Insert_move_spec v pos item hsz hblk hfit hpos
    exact ⟨w, by rw [Insert_eq_Insert_move v pos item (Or.inl hlt)]; exact hrun, hs, hc, hb⟩
  · have hM := SIZE_T_MOD_eq
    have hs1 : size_t (v.size_ + 1) = v.size_ + 1 := size_t_of_lt (by omega)
    have hc2 : size_t (2 * v.capacity_) = 2 * v.capacity_ := size_t_of_lt hfit
    obtain ⟨a1, hcopy, hlen1, _⟩ := std_copy_spec v.items_ 0 pos
      (ArrayPtr.alloc (max 1 (2 * v.capacity_))) 0 (by omega) (by omega)
      (by rw [ArrayPtr.slots_alloc, List.length_replicate]; omega)
    rw [ArrayPtr.slots_alloc, List.length_replicate] at hlen1
    obtain ⟨a2, hback, hlen2, _⟩ := std_copy_backward_spec v.items_ pos v.size_ a1
      (v.size_ + 1) hpos (by omega) (by omega) (by omega)
    obtain ⟨a3, hw, hslots⟩ := ArrayPtr.write_of_lt (p := a2) item
      (show v.size_ < a2.slots.length by omega)
    refine ⟨⟨a3, v.size_ + 1, max 1 (2 * v.capacity_)⟩, ?_, rfl, ?_, ?_⟩
    · simp only [Insert, if_pos hpos, if_neg hlt, hs1, hc2, hcopy, hback, hw]
    · rw [if_neg hlt]
    · simp only [hslots, List.length_set, hlen2, hlen1]

/-- `Resize` returns on every vector whose block holds its elements. -/
theorem Resize_ok_spec [Inhabited α] (v : SimpleVector α) (n : Nat)
    (hsz : v.size_ ≤ v.capacity_) (hblk : v.size_ ≤ v.items_.slots.length) :
    ∃ w, Resize v n = .ok w ∧ w.size_ = n ∧
      w.capacity_ = (if n > v.capacity_ then max n (size_t (2 * v.capacity_))
        else v.capacity_) := by
  by_cases hn : n > v.capacity_
  · obtain ⟨w, hrun, hs, hc, _, _⟩ := Resize_grow_spec v n hsz hblk hn
    exact ⟨w, hrun, hs, by rw [hc, if_pos hn]⟩
  · exact ⟨{ v with size_ := n }, by simp only [Resize, if_neg hn], rfl, by rw [if_neg hn]⟩

end SimpleVector

namespace SimpleVector

variable {α : Type}

/-- What `operator[]` as an lvalue does at an index below the size. -/
theorem assign_at_spec (v : SimpleVector α) (i : Nat) (x : α) (hi : i < v.size_)
    (hblk : v.size_ ≤ v.items_.slots.length) :
    ∃ w, assign_at v i x = .ok w ∧ w.size_ = v.size_ ∧ w.capacity_ = v.capacity_ ∧
      w.toList = v.toList.set i x ∧ w.index i = .ok x := by
  obtain ⟨r, hw, hslots⟩ := ArrayPtr.write_of_lt (p := v.items_) x
    (show i < v.items_.slots.length by omega)
  have hl : ({ v with items_ := r } : SimpleVector α).toList = v.toList.set i x := by
    apply List.ext_getElem?
    intro j
    rw [toList_getElem?, List.getElem?_set, toList_length v hblk, toList_getElem?]
    simp only [hslots, List.getElem?_set]
    by_cases hj : i = j
    · subst hj
      rw [if_pos hi, if_pos rfl, if_pos (by omega), if_pos rfl, if_pos hi]
    · rw [if_neg hj, if_neg hj]
  refine ⟨{ v with items_ := r }, ?_, rfl, rfl, hl, ?_⟩
  · simp only [assign_at, if_pos hi, hw]
  · apply index_of_toList
    rw [hl, List.getElem?_set, if_pos rfl, toList_length v hblk, if_pos hi]

end SimpleVector

namespace SimpleVector

variable {α : Type}

theorem sized_value_spec [Inhabited α] (n : Nat) (value : α) :
    ∃ w : SimpleVector α, sized_value n value = .ok w ∧ w.size_ = n ∧ w.capacity_ = n ∧
      w.items_.slots.length = n := by
  obtain ⟨r, hfill, hlen, _⟩ := std_fill_spec (ArrayPtr.alloc n : ArrayPtr α) 0 n value
    (Nat.zero_le _) (by rw [ArrayPtr.slots_alloc, List.length_replicate])
  rw [ArrayPtr.slots_alloc, List.length_replicate] at hlen
  exact ⟨⟨r, n, n⟩, by simp only [sized_value, hfill], rfl, rfl, hlen⟩

theorem of_init_spec [Inhabited α] (init : List α) :
    ∃ w : SimpleVector α, of_init init = .ok w ∧ w.size_ = init.length ∧
      w.capacity_ = init.length ∧ w.items_.slots.length = init.length ∧ w.toList = init := by
  obtain ⟨r, hcopy, hlen, hget⟩ := std_copy_spec (⟨some init⟩ : ArrayPtr α) 0 init.length
    (ArrayPtr.alloc init.length) 0 (Nat.zero_le _) (by rw [ArrayPtr.slots_mk])
    (by rw [ArrayPtr.slots_alloc, List.length_replicate]; omega)
  rw [ArrayPtr.slots_alloc, List.length_replicate] at hlen
  refine ⟨⟨r, init.length, init.length⟩, by simp only [of_init, hcopy], rfl, rfl, hlen, ?_⟩
  apply List.ext_getElem?
  intro i
  rw [toList_getElem?]
  simp only [hget, ArrayPtr.slots_mk]
  by_cases h1 : i < init.length
  · rw [if_pos h1, if_pos (by omega)]
    simp
  · rw [if_neg h1, List.getElem?_eq_none (by omega)]

theorem of_reserve_spec [Inhabited α] (n : Nat) :
    ∃ w : SimpleVector α, of_reserve n = .ok w ∧ w.size_ = 0 ∧ w.capacity_ = n ∧
      w.items_.slots.length = n := by
  by_cases h0 : 0 < n
  · obtain ⟨v, hrun, hs, hc, hb, _⟩ := Reserve_grow_spec
      (empty : SimpleVector α) n (Nat.le_refl _) rfl h0
    exact ⟨v, hrun, hs, hc, hb⟩
  · have hz : n = 0 := by omega
    subst hz
    exact ⟨empty, rfl, rfl, rfl, rfl⟩

/-- `Reserve` on a vector whose block has `capacity_` slots. -/
theorem Reserve_ok_spec [Inhabited α] (v : SimpleVector α) (n : Nat)
    (hsz : v.size_ ≤ v.capacity_) (hblk : v.items_.slots.length = v.capacity_) :
    ∃ w, Reserve v n = .ok w ∧ w.size_ = v.size_ ∧ w.capacity_ = max n v.capacity_ ∧
      w.items_.slots.length = w.capacity_ := by
  by_cases hn : v.capacity_ < n
  · obtain ⟨w, hrun, hs, hc, hb, _⟩ := Reserve_grow_spec v n hsz hblk hn
    exact ⟨w, hrun, hs, by rw [hc]; omega, by rw [hb, hc]⟩
  · exact ⟨v, Reserve_noop v n (by omega), rfl, by omega, hblk⟩

/-- Every assignment returns on a source whose block holds its elements; the result has
the size and capacity fields of the source, or is the cleared destination. -/
theorem copy_assign_ok [Inhabited α] (this rhs : SimpleVector α) (self_assignment : Bool)
    (hblk : rhs.size_ ≤ rhs.items_.slots.length) :
    ∃ w, copy_assign this rhs self_assignment = .ok w ∧
      (w = this ∨ w = Clear this ∨ (w.size_ = rhs.size_ ∧ w.capacity_ = rhs.capacity_)) := by
  cases self_assignment with
  | true => exact ⟨this, by simp [copy_assign], Or.inl rfl⟩
  | false =>
    by_cases h0 : rhs.size_ = 0
    · exact ⟨Clear this, copy_assign_empty this rhs h0, Or.inr (Or.inl rfl)⟩
    · obtain ⟨w, hrun, hs, hc, _, _⟩ := copy_assign_spec this rhs hblk h0
      exact ⟨w, hrun, Or.inr (Or.inr ⟨hs, hc⟩)⟩

end SimpleVector

namespace SimpleVector

variable {α : Type}

/-- One `PushBack` keeps the doubling shape. -/
theorem doubling_shape_step (size cap : Nat)
    (h : (size = 0 ∧ cap = 0) ∨ (∃ k : Nat, cap = 2 ^ k ∧ size ≤ cap ∧ cap < 2 * size)) :
    ∃ k : Nat, (if size < cap then cap else max 1 (2 * cap)) = 2 ^ k ∧
      size + 1 ≤ (if size < cap then cap else max 1 (2 * cap)) ∧
      (if size < cap then cap else max 1 (2 * cap)) < 2 * (size + 1) := by
  rcases h with ⟨hs, hc⟩ | ⟨k, hc, hle, hlt⟩
  · subst hs; subst hc
    exact ⟨0, by simp, by simp, by simp⟩
  · have hpos : 1 ≤ 2 ^ k := Nat.one_le_two_pow
    by_cases hb : size < cap
    · rw [if_pos hb]
      exact ⟨k, hc, by omega, by omega⟩
    · rw [if_neg hb]
      have h2 : 2 ^ (k + 1) = 2 * 2 ^ k := by rw [Nat.pow_succ]; omega
      refine ⟨k + 1, ?_, ?_, ?_⟩
      · rw [h2, ← hc]; omega
      · omega
      · omega

theorem push_each_doubling [Inhabited α] :
    ∀ (calls : List (Bool × α)) (v : SimpleVector α),
      v.size_ ≤ v.capacity_ → v.items_.slots.length = v.capacity_ → v.doubling_shape →
      2 * (v.size_ + calls.length) ≤ SIZE_T_MOD →
      ∃ w, push_each v calls = .ok w ∧ w.size_ = v.size_ + calls.length ∧
        w.size_ ≤ w.capacity_ ∧ w.items_.slots.length = w.capacity_ ∧ w.doubling_shape := by
  intro calls
  induction calls with
  | nil =>
    intro v hsz hblk hshape _
    exact ⟨v, rfl, rfl, hsz, hblk, hshape⟩
  | cons c rest ih =>
    intro v hsz hblk hshape hlen
    obtain ⟨rvalue, x⟩ := c
    have hM := SIZE_T_MOD_eq
    simp only [List.length_cons] at hlen
    obtain ⟨w1, hpush, hs1, hc1, hb1, _⟩ :=
      PushBack_spec_full v x hsz hblk (by omega) (by intro _; omega)
    have hcall : (if rvalue then PushBack_move v x else PushBack v x) = .ok w1 := by
      cases rvalue
      · simpa using hpush
      · simpa [PushBack_move_eq] using hpush
    obtain ⟨k, hk, hle, hlt⟩ := doubling_shape_step v.size_ v.capacity_ hshape
    have hshape1 : w1.doubling_shape := by
      unfold doubling_shape
      right
      exact ⟨k, by rw [hc1]; exact hk, by rw [hs1, hc1]; exact hle, by rw [hs1, hc1]; exact hlt⟩
    have hsz1 : w1.size_ ≤ w1.capacity_ := by rw [hs1, hc1]; exact hle
    obtain ⟨w, hrun, hs, hsw, hb, hshape2⟩ := ih w1 hsz1 hb1 hshape1 (by rw [hs1]; omega)
    refine ⟨w, ?_, ?_, hsw, hb, hshape2⟩
    · simp only [push_each, hcall, hrun]
    · rw [hs, hs1, List.length_cons]; omega

/-- In the doubling shape the capacity is below every other power of two that covers
the size. -/
theorem doubling_shape_least (n k j : Nat) (hlt : 2 ^ k < 2 * n) (hj : n ≤ 2 ^ j) :
    2 ^ k ≤ 2 ^ j := by
  by_contra hcon
  have h1 : 2 ^ j < 2 ^ k := by omega
  have h2 : j < k := (Nat.pow_lt_pow_iff_right (by omega)).mp h1
  have h3 : 2 ^ (j + 1) ≤ 2 ^ k := Nat.pow_le_pow_right (by omega) h2
  have h4 : 2 ^ (j + 1) = 2 * 2 ^ j := by rw [Nat.pow_succ]; omega
  omega

/-- In the doubling shape the vector is full exactly when the size is 0 or a power of two. -/
theorem doubling_shape_full_iff (v : SimpleVector α) (h : v.doubling_shape) :
    ¬ v.size_ < v.capacity_ ↔ (v.size_ = 0 ∨ ∃ k : Nat, v.size_ = 2 ^ k) := by
  unfold doubling_shape at h
  rcases h with ⟨hs, hc⟩ | ⟨k, hc, hle, hlt⟩
  · constructor
    · intro _; exact Or.inl hs
    · intro _; omega
  · constructor
    · intro hfull
      exact Or.inr ⟨k, by omega⟩
    · rintro (h0 | ⟨j, hj⟩)
      · omega
      · intro hsc
        have h1 : 2 ^ j < 2 ^ k := by omega
        have h2 : j < k := (Nat.pow_lt_pow_iff_right (by omega)).mp h1
        have h3 : 2 ^ (j + 1) ≤ 2 ^ k := Nat.pow_le_pow_right (by omega) h2
        have h4 : 2 ^ (j + 1) = 2 * 2 ^ j := by rw [Nat.pow_succ]; omega
        omega

end SimpleVector

/-! ## Objects that hold their block by address -/

namespace ArrayPtr

variable {α : Type}

theorem eq_mk_slots {p : ArrayPtr α} (h : p.slots ≠ []) : p = ⟨some p.slots⟩ := by
  cases p with
  | mk r =>
    cases r with
    | none => exact absurd rfl h
    | some b => rfl

end ArrayPtr

namespace ArrayPtrRef

variable {α : Type}

/-- A pointer whose buffer has slots is an address inside the store. -/
theorem address_of_slots {p : ArrayPtrRef} {h : Heap α} (hne : (p.deref h).slots ≠ []) :
    ∃ a, p.raw_ptr_ = some a ∧ a < h.length := by
  unfold deref at hne
  cases hp : p.raw_ptr_ with
  | none => rw [hp] at hne; exact absurd rfl hne
  | some a =>
    rw [hp] at hne
    refine ⟨a, rfl, ?_⟩
    by_contra hlt
    simp only [] at hne
    rw [List.getElem?_eq_none (by omega)] at hne
    exact hne rfl

/-- The buffer `ArrayPtr(size)` denotes in the store it was allocated in. -/
theorem deref_alloc [Inhabited α] (h : Heap α) (size : Nat) :
    (alloc h size).2.deref (alloc h size).1 = ArrayPtr.alloc size := by
  unfold alloc ArrayPtr.alloc
  split
  · simp [deref]
  · rfl

/-- An allocation leaves a pointer into the store with the buffer it had. -/
theorem deref_alloc_other [Inhabited α] (h : Heap α) (size : Nat) {p : ArrayPtrRef} {a : Nat}
    (hp : p.raw_ptr_ = some a) (ha : a < h.length) :
    p.deref (alloc h size).1 = p.deref h := by
  unfold alloc
  by_cases hs : size ≠ 0
  · rw [if_pos hs]
    unfold deref
    rw [hp]
    simp only []
    rw [List.getElem?_append_left ha]
  · rw [if_neg hs]

/-- Writing back the block of one address leaves the buffer of every other pointer. -/
theorem deref_set_ne (h : Heap α) {p : ArrayPtrRef} {a : Nat} (b : List α)
    (hp : p.raw_ptr_ ≠ some a) : p.deref (h.set a b) = p.deref h := by
  unfold deref
  cases hq : p.raw_ptr_ with
  | none => rfl
  | some c =>
    have hne : a ≠ c := by
      intro hac
      apply hp
      rw [hq, hac]
    simp only []
    rw [List.getElem?_set_ne hne]

/-- Writing back the block of an address of the store makes it the buffer of that address. -/
theorem deref_set_self (h : Heap α) {p : ArrayPtrRef} {a : Nat} (b : List α)
    (hp : p.raw_ptr_ = some a) (ha : a < h.length) : p.deref (h.set a b) = ⟨some b⟩ := by
  unfold deref
  rw [hp]
  simp only []
  rw [List.getElem?_set_self ha]

end ArrayPtrRef

namespace SimpleVectorRef

variable {α : Type}

/-- The copy constructor puts, at a fresh address, the vector that the copy constructor
builds from the view of the source, and leaves the source with the view it had. -/
theorem copy_ctor_view [Inhabited α] (h : Heap α) (other : SimpleVectorRef)
    (hblk : other.size_ ≤ (other.view h).items_.slots.length) :
    ∃ h1 w, copy_ctor h other = .ok (h1, w) ∧
      SimpleVector.copy_ctor (other.view h) = .ok (w.view h1) ∧
      other.view h1 = other.view h ∧
      (other.size_ ≠ 0 → w.items_.raw_ptr_ = some h.length ∧ h.length < h1.length ∧
        other.items_.raw_ptr_ ≠ some h.length) := by
  have hblk1 : other.size_ ≤ (other.items_.deref h).slots.length := hblk
  obtain ⟨r, hcopy, hlen, _⟩ := std_copy_spec (other.items_.deref h) 0 other.size_
    (ArrayPtr.alloc other.size_) 0 (Nat.zero_le _) hblk1
    (by rw [ArrayPtr.slots_alloc, List.length_replicate]; omega)
  rw [ArrayPtr.slots_alloc, List.length_replicate] at hlen
  have hval : SimpleVector.copy_ctor (other.view h) = .ok ⟨r, other.size_, other.size_⟩ := by
    simp only [SimpleVector.copy_ctor, view, hcopy]
  by_cases h0 : other.size_ = 0
  · have hr : r = ⟨none⟩ := by
      have := hcopy
      rw [h0] at this
      simp only [std_copy, Nat.lt_irrefl, if_false, Nat.sub_self, std_copy_loop,
        ArrayPtr.alloc, ne_eq, not_true_eq_false] at this
      exact (Except.ok.inj this).symm
    refine ⟨h, ⟨⟨none⟩, other.size_, other.size_⟩, ?_, ?_, rfl, fun hne => absurd h0 hne⟩
    · simp only [copy_ctor, ArrayPtrRef.alloc, h0, ne_eq, not_true_eq_false, if_false,
        std_copy, Nat.lt_irrefl, Nat.sub_self, std_copy_loop, ArrayPtrRef.store]
    · rw [hval, hr]
      rfl
  · have hne : (other.items_.deref h).slots ≠ [] := by
      intro hnil
      rw [hnil] at hblk1
      simp at hblk1
      exact h0 hblk1
    obtain ⟨a, hp, ha⟩ := ArrayPtrRef.address_of_slots hne
    have halloc : ArrayPtrRef.alloc h other.size_ =
        (h ++ [List.replicate other.size_ default], ⟨some h.length⟩) := by
      unfold ArrayPtrRef.alloc
      rw [if_pos h0]
    have hsrc : other.items_.deref (h ++ [List.replicate other.size_ default])
        = other.items_.deref h := by
      have := ArrayPtrRef.deref_alloc_other h other.size_ hp ha
      rwa [halloc] at this
    have hdst : (⟨some h.length⟩ : ArrayPtrRef).deref
        (h ++ [List.replicate other.size_ default]) = ArrayPtr.alloc other.size_ := by
      have := ArrayPtrRef.deref_alloc h other.size_
      rwa [halloc] at this
    have hfresh : other.items_.raw_ptr_ ≠ some h.length := by
      rw [hp]
      intro heq
      have := Option.some.inj heq
      omega
    have hrs : r = ⟨some r.slots⟩ := by
      apply ArrayPtr.eq_mk_slots
      intro hnil
      rw [hnil] at hlen
      simp at hlen
      exact h0 hlen.symm
    refine ⟨(h ++ [List.replicate other.size_ default]).set h.length r.slots,
      ⟨⟨some h.length⟩, other.size_, other.size_⟩, ?_, ?_, ?_, fun _ => ⟨rfl, ?_, hfresh⟩⟩
    · simp only [copy_ctor, halloc, hsrc, hdst, hcopy, ArrayPtrRef.store]
    · rw [hval]
      simp only [view]
      rw [ArrayPtrRef.deref_set_self _ _ rfl (by simp), ← hrs]
    · simp only [view]
      rw [ArrayPtrRef.deref_set_ne _ _ hfresh, hsrc]
    · simp

/-- A write through `operator[]` is the write on the view of the object, and leaves the
buffer of every pointer to another address. -/
theorem assign_at_view (h : Heap α) (v : SimpleVectorRef) (i : Nat) (x : α) {a : Nat}
    (hp : v.items_.raw_ptr_ = some a) (ha : a < h.length) (hi : i < v.size_)
    (hblk : v.size_ ≤ (v.view h).items_.slots.length) :
    ∃ h2, assign_at h v i x = .ok h2 ∧
      SimpleVector.assign_at (v.view h) i x = .ok (v.view h2) ∧
      ∀ p : ArrayPtrRef, p.raw_ptr_ ≠ some a → p.deref h2 = p.deref h := by
  have hblk1 : v.size_ ≤ (v.items_.deref h).slots.length := hblk
  obtain ⟨r, hw, hslots⟩ := ArrayPtr.write_of_lt (p := v.items_.deref h) x
    (show i < (v.items_.deref h).slots.length by omega)
  have hrs : r = ⟨some r.slots⟩ := by
    apply ArrayPtr.eq_mk_slots
    intro hnil
    have hl := congrArg List.length hslots
    rw [hnil, List.length_set] at hl
    simp at hl
    omega
  refine ⟨h.set a r.slots, ?_, ?_, ?_⟩
  · simp only [assign_at, if_pos hi, hw, ArrayPtrRef.store, hp]
  · simp only [SimpleVector.assign_at, view, if_pos hi, hw]
    rw [ArrayPtrRef.deref_set_self _ _ hp ha, ← hrs]
  · intro p hne
    exact ArrayPtrRef.deref_set_ne h r.slots hne

end SimpleVectorRef

/-! ## Claims -/

/-- C1: starting from a default-constructed vector and calling `PushBack` (either overload,
chosen per call) once per element of a list, in order, returns normally with
`GetSize()` equal to the length of the list, and reading index `i` with `operator[]`
or with `At` gives the `i`-th pushed value.  The list has at most `2 ^ 63` elements,
the most a 64-bit `size_t` capacity can be doubled up to. -/
theorem C1_push_back_reads_back {α : Type} [Inhabited α] (calls : List (Bool × α))
    (hlen : 2 * calls.length ≤ SIZE_T_MOD) :
    ∃ w, SimpleVector.push_each SimpleVector.empty calls = .ok w ∧
      w.GetSize = calls.length ∧
      ∀ i (hi : i < calls.length),
        w.index i = .ok (calls[i]).2 ∧ (w.At i).1 = .ok (calls[i]).2 := by
  obtain ⟨w, hrun, hs, _, _, _, hl⟩ :=
    SimpleVector.push_each_spec calls SimpleVector.empty (Nat.le_refl _) rfl (Or.inl rfl)
      (by simpa [SimpleVector.empty] using hlen)
  refine ⟨w, hrun, by simpa [SimpleVector.GetSize, SimpleVector.empty] using hs, ?_⟩
  intro i hi
  have hget : w.toList[i]? = some (calls[i]).2 := by
    rw [hl]
    simp [SimpleVector.toList, SimpleVector.empty, ArrayPtr.slots_null, List.getElem?_map,
      List.getElem?_eq_getElem hi]
  exact ⟨SimpleVector.index_of_toList hget, by rw [SimpleVector.At_of_toList hget]⟩

theorem C1_push_back_reads_back_witness :
    2 * [(false, (1 : Nat)), (true, 2), (false, 3)].length ≤ SIZE_T_MOD ∧
    ∃ w, SimpleVector.push_each SimpleVector.empty [(false, (1 : Nat)), (true, 2), (false, 3)]
        = .ok w ∧
      w.GetSize = [(false, (1 : Nat)), (true, 2), (false, 3)].length ∧
      ∀ i (hi : i < [(false, (1 : Nat)), (true, 2), (false, 3)].length),
        w.index i = .ok ([(false, (1 : Nat)), (true, 2), (false, 3)][i]).2 ∧
        (w.At i).1 = .ok ([(false, (1 : Nat)), (true, 2), (false, 3)][i]).2 :=
  ⟨by decide, C1_push_back_reads_back _ (by decide)⟩

/-- C2: the copying `Insert` on the full vector `{1,2,3}` at position 1 with value 9 returns
position 1 but leaves the sequence `[1, 0, 2, 9]` (size 4, capacity 6): the value is stored
at index `size_` instead of the insertion position, so the old last element 3 is lost and
index 1 holds a fresh slot; the claim requires `[1, 9, 2, 3]`.  The moving overload
returns `[1, 9, 2, 3]` on the same input. -/
theorem C2_insert_copy_full_middle :
    SimpleVector.of_init [1, 2, 3] = .ok (⟨⟨some [1, 2, 3]⟩, 3, 3⟩ : SimpleVector Nat) ∧
    SimpleVector.Insert (⟨⟨some [1, 2, 3]⟩, 3, 3⟩ : SimpleVector Nat) 1 9
      = .ok (1, ⟨⟨some [1, 0, 2, 9, 0, 0]⟩, 4, 6⟩) ∧
    (⟨⟨some [1, 0, 2, 9, 0, 0]⟩, 4, 6⟩ : SimpleVector Nat).toList = [1, 0, 2, 9] ∧
    (⟨⟨some [1, 0, 2, 9, 0, 0]⟩, 4, 6⟩ : SimpleVector Nat).toList ≠ [1, 9, 2, 3] ∧
    SimpleVector.Insert_move (⟨⟨some [1, 2, 3]⟩, 3, 3⟩ : SimpleVector Nat) 1 9
      = .ok (1, ⟨⟨some [1, 9, 2, 3, 0, 0]⟩, 4, 6⟩) :=
  ⟨rfl, rfl, rfl, by decide, rfl⟩

/-- C3: for a vector with `size_ <= capacity_` whose block has `capacity_` slots, the moving
`Insert` at a position `pos` in `[0, size_]` returns normally with the iterator at offset
`pos`, the sequence `old[0..pos) ++ [item] ++ old[pos..size)`, size increased by one, and
capacity `max(1, 2 * capacity_)` when the vector was full and unchanged otherwise
(`2 * capacity_` is taken to fit a `size_t`). -/
theorem C3_insert_move {α : Type} [Inhabited α] (v : SimpleVector α) (pos : Nat) (item : α)
    (hsz : v.size_ ≤ v.capacity_) (hblk : v.items_.slots.length = v.capacity_)
    (hfit : 2 * v.capacity_ < SIZE_T_MOD) (hpos : pos ≤ v.size_) :
    ∃ w, SimpleVector.Insert_move v pos item = .ok (pos, w) ∧
      w.toList = v.toList.take pos ++ [item] ++ v.toList.drop pos ∧
      w.GetSize = v.GetSize + 1 ∧
      w.GetCapacity =
        (if v.GetSize = v.GetCapacity then max 1 (2 * v.GetCapacity) else v.GetCapacity) := by
  obtain ⟨w, hrun, hs, hc, _, hl⟩ := SimpleVector.Insert_move_spec v pos item hsz hblk hfit hpos
  refine ⟨w, hrun, hl, hs, ?_⟩
  simp only [SimpleVector.GetSize, SimpleVector.GetCapacity]
  rw [hc]
  by_cases h : v.size_ < v.capacity_
  · rw [if_pos h, if_neg (by omega)]
  · rw [if_neg h, if_pos (by omega)]

theorem C3_insert_move_witness :
    (⟨⟨some [1, 2, 3]⟩, 3, 3⟩ : SimpleVector Nat).size_
      ≤ (⟨⟨some [1, 2, 3]⟩, 3, 3⟩ : SimpleVector Nat).capacity_ ∧
    (⟨⟨some [1, 2, 3]⟩, 3, 3⟩ : SimpleVector Nat).items_.slots.length
      = (⟨⟨some [1, 2, 3]⟩, 3, 3⟩ : SimpleVector Nat).capacity_ ∧
    2 * (⟨⟨some [1, 2, 3]⟩, 3, 3⟩ : SimpleVector Nat).capacity_ < SIZE_T_MOD ∧
    1 ≤ (⟨⟨some [1, 2, 3]⟩, 3, 3⟩ : SimpleVector Nat).size_ ∧
    ∃ w, SimpleVector.Insert_move (⟨⟨some [1, 2, 3]⟩, 3, 3⟩ : SimpleVector Nat) 1 9
        = .ok (1, w) ∧
      w.toList = (⟨⟨some [1, 2, 3]⟩, 3, 3⟩ : SimpleVector Nat).toList.take 1 ++ [9]
        ++ (⟨⟨some [1, 2, 3]⟩, 3, 3⟩ : SimpleVector Nat).toList.drop 1 ∧
      w.GetSize = (⟨⟨some [1, 2, 3]⟩, 3, 3⟩ : SimpleVector Nat).GetSize + 1 ∧
      w.GetCapacity =
        (if (⟨⟨some [1, 2, 3]⟩, 3, 3⟩ : SimpleVector Nat).GetSize
            = (⟨⟨some [1, 2, 3]⟩, 3, 3⟩ : SimpleVector Nat).GetCapacity
         then max 1 (2 * (⟨⟨some [1, 2, 3]⟩, 3, 3⟩ : SimpleVector Nat).GetCapacity)
         else (⟨⟨some [1, 2, 3]⟩, 3, 3⟩ : SimpleVector Nat).GetCapacity) :=
  ⟨by decide, by decide, by decide, by decide,
    C3_insert_move _ 1 9 (by decide) (by decide) (by decide) (by decide)⟩

/-- C4: for a vector with `size_ <= capacity_` whose block has `capacity_` slots, `Erase` at a
position `pos` in `[0, size_)` returns normally with the sequence
`old[0..pos) ++ old[pos+1..size)`, size decreased by one, capacity unchanged, and the
iterator at offset `pos`: the element that followed the erased one, or `end()` when `pos`
was the last index. -/
theorem C4_erase {α : Type} (v : SimpleVector α) (pos : Nat)
    (hsz : v.size_ ≤ v.capacity_) (hblk : v.items_.slots.length = v.capacity_)
    (hpos : pos < v.size_) :
    ∃ w, SimpleVector.Erase v pos = .ok (pos, w) ∧
      w.toList = v.toList.take pos ++ v.toList.drop (pos + 1) ∧
      w.GetSize + 1 = v.GetSize ∧ w.GetCapacity = v.GetCapacity ∧
      w.toList[pos]? = v.toList[pos + 1]? ∧ (pos + 1 = v.GetSize → pos = w.GetSize) := by
  obtain ⟨w, hrun, hs, hc, _, hl⟩ := SimpleVector.Erase_spec v pos hsz hblk hpos
  have htl : v.toList.length = v.size_ := SimpleVector.toList_length v (by omega)
  refine ⟨w, hrun, hl, ?_, hc, ?_, ?_⟩
  · simp only [SimpleVector.GetSize]
    omega
  · rw [hl, erase_getElem? _ _ (by omega), if_neg (Nat.lt_irrefl _)]
  · simp only [SimpleVector.GetSize]
    omega

theorem C4_erase_witness :
    SimpleVector.vec123.size_ ≤ SimpleVector.vec123.capacity_ ∧
    SimpleVector.vec123.items_.slots.length = SimpleVector.vec123.capacity_ ∧
    1 < SimpleVector.vec123.size_ ∧
    ∃ w, SimpleVector.Erase SimpleVector.vec123 1 = .ok (1, w) ∧
      w.toList = SimpleVector.vec123.toList.take 1 ++ SimpleVector.vec123.toList.drop (1 + 1) ∧
      w.GetSize + 1 = SimpleVector.vec123.GetSize ∧
      w.GetCapacity = SimpleVector.vec123.GetCapacity ∧
      w.toList[1]? = SimpleVector.vec123.toList[1 + 1]? ∧
      (1 + 1 = SimpleVector.vec123.GetSize → 1 = w.GetSize) :=
  ⟨by decide, by decide, by decide,
    C4_erase SimpleVector.vec123 1 (by decide) (by decide) (by decide)⟩

/-- C5: inverse law.  For a vector with `size_ <= capacity_` whose block has `capacity_` slots
(`2 * capacity_` fitting a `size_t`) and a position `pos` in `[0, size_]`, the moving
`Insert(pos, item)` followed by `Erase` at the iterator `Insert` returned both return
normally and leave a vector with the size and the sequence of elements the vector had
before the two calls. -/
theorem C5_insert_then_erase {α : Type} [Inhabited α] (v : SimpleVector α) (pos : Nat)
    (item : α) (hsz : v.size_ ≤ v.capacity_) (hblk : v.items_.slots.length = v.capacity_)
    (hfit : 2 * v.capacity_ < SIZE_T_MOD) (hpos : pos ≤ v.size_) :
    ∃ it w u, SimpleVector.Insert_move v pos item = .ok (it, w) ∧
      SimpleVector.Erase w it = .ok (it, u) ∧
      u.GetSize = v.GetSize ∧ u.toList = v.toList := by
  obtain ⟨w, hins, hs, hc, hb, hl⟩ := SimpleVector.Insert_move_spec v pos item hsz hblk hfit hpos
  have hszw : w.size_ ≤ w.capacity_ := by
    rw [hs, hc]; split <;> omega
  obtain ⟨u, hera, hsu, _, _, hlu⟩ := SimpleVector.Erase_spec w pos hszw hb (by omega)
  have htl : v.toList.length = v.size_ := SimpleVector.toList_length v (by omega)
  refine ⟨pos, w, u, hins, hera, ?_, ?_⟩
  · simp only [SimpleVector.GetSize]
    omega
  · rw [hlu, hl]
    exact SimpleVector.take_drop_insert v.toList pos item (by omega)

theorem C5_insert_then_erase_witness :
    SimpleVector.pushed123.size_ ≤ SimpleVector.pushed123.capacity_ ∧
    SimpleVector.pushed123.items_.slots.length = SimpleVector.pushed123.capacity_ ∧
    2 * SimpleVector.pushed123.capacity_ < SIZE_T_MOD ∧
    1 ≤ SimpleVector.pushed123.size_ ∧
    ∃ it w u, SimpleVector.Insert_move SimpleVector.pushed123 1 9 = .ok (it, w) ∧
      SimpleVector.Erase w it = .ok (it, u) ∧
      u.GetSize = SimpleVector.pushed123.GetSize ∧ u.toList = SimpleVector.pushed123.toList :=
  ⟨by decide, by decide, by decide, by decide,
    C5_insert_then_erase SimpleVector.pushed123 1 9 (by decide) (by decide) (by decide)
      (by decide)⟩

/-- The example of the specification, call by call: three `PushBack` calls give size 3,
`Insert(begin + 1, 9)` gives `[1, 9, 2, 3]`, `Erase(begin + 1)` gives `[1, 2, 3]`,
`PopBack()` gives `[1, 2]` with size 2. -/
theorem spec_example_push_insert_erase_pop :
    SimpleVector.push_each SimpleVector.empty [(true, 1), (true, 2), (true, 3)]
      = .ok SimpleVector.pushed123 ∧
    SimpleVector.pushed123.GetSize = 3 ∧
    SimpleVector.Insert_move SimpleVector.pushed123 1 9
      = .ok (1, ⟨⟨some [1, 9, 2, 3]⟩, 4, 4⟩) ∧
    (⟨⟨some [1, 9, 2, 3]⟩, 4, 4⟩ : SimpleVector Nat).toList = [1, 9, 2, 3] ∧
    SimpleVector.Erase (⟨⟨some [1, 9, 2, 3]⟩, 4, 4⟩ : SimpleVector Nat) 1
      = .ok (1, ⟨⟨some [1, 2, 3, 3]⟩, 3, 4⟩) ∧
    (⟨⟨some [1, 2, 3, 3]⟩, 3, 4⟩ : SimpleVector Nat).toList = [1, 2, 3] ∧
    SimpleVector.PopBack (⟨⟨some [1, 2, 3, 3]⟩, 3, 4⟩ : SimpleVector Nat)
      = .ok ⟨⟨some [1, 2, 3, 3]⟩, 2, 4⟩ ∧
    (⟨⟨some [1, 2, 3, 3]⟩, 2, 4⟩ : SimpleVector Nat).toList = [1, 2] ∧
    (⟨⟨some [1, 2, 3, 3]⟩, 2, 4⟩ : SimpleVector Nat).GetSize = 2 :=
  ⟨rfl, rfl, rfl, rfl, rfl, rfl, rfl, rfl, rfl⟩

/-- C6: `At(i)` throws `out_of_range` exactly when `i >= GetSize()` (so it does at
`i == size` and, when `size <= capacity`, at `i == capacity`); the vector is the same after
the call whether it throws or not; when `i < GetSize()` it performs the same slot read as
`operator[]`, and that read returns an element whenever the block holds the `size_`
elements. -/
theorem C6_at_out_of_range {α : Type} (v : SimpleVector α) (i : Nat) :
    ((v.At i).1 = .error .out_of_range ↔ i ≥ v.GetSize) ∧
    (v.At i).2 = v ∧
    (v.At v.GetSize).1 = .error .out_of_range ∧
    (v.GetSize ≤ v.GetCapacity → (v.At v.GetCapacity).1 = .error .out_of_range) ∧
    (i < v.GetSize → (v.At i).1 = v.index i) ∧
    (i < v.GetSize → v.GetSize ≤ v.items_.slots.length →
      ∃ x, (v.At i).1 = .ok x ∧ v.index i = .ok x ∧ v.toList[i]? = some x) := by
  simp only [SimpleVector.GetSize, SimpleVector.GetCapacity]
  refine ⟨?_, ?_, ?_, ?_, ?_, ?_⟩
  · constructor
    · intro h
      by_cases hi : i ≥ v.size_
      · exact hi
      · simp only [SimpleVector.At, if_neg hi] at h
        exact absurd h (SimpleVector.read_ne_out_of_range _ _)
    · intro hi
      simp only [SimpleVector.At, if_pos hi]
  · unfold SimpleVector.At
    split <;> rfl
  · simp only [SimpleVector.At, if_pos (Nat.le_refl v.size_)]
  · intro h
    simp only [SimpleVector.At, if_pos (show v.capacity_ ≥ v.size_ from h)]
  · intro hi
    simp only [SimpleVector.At, SimpleVector.index, if_neg (show ¬ i ≥ v.size_ by omega),
      if_pos hi]
  · intro hi hblk
    have hlt : i < v.items_.slots.length := by omega
    refine ⟨v.items_.slots[i], ?_, ?_, ?_⟩
    · simp only [SimpleVector.At, if_neg (show ¬ i ≥ v.size_ by omega),
        ArrayPtr.read_of_lt hlt]
    · simp only [SimpleVector.index, if_pos hi, ArrayPtr.read_of_lt hlt]
    · rw [SimpleVector.toList_getElem?, if_pos hi, List.getElem?_eq_getElem hlt]

theorem C6_at_out_of_range_witness :
    (SimpleVector.pushed123.At 3).1 = .error .out_of_range ∧
    (SimpleVector.pushed123.At 4).1 = .error .out_of_range ∧
    (SimpleVector.pushed123.At 3).2 = SimpleVector.pushed123 ∧
    ∃ x, (SimpleVector.pushed123.At 2).1 = .ok x ∧ SimpleVector.pushed123.index 2 = .ok x ∧
      SimpleVector.pushed123.toList[2]? = some x :=
  ⟨(C6_at_out_of_range SimpleVector.pushed123 3).1.mpr (by decide),
    (C6_at_out_of_range SimpleVector.pushed123 4).2.2.2.1 (by decide),
    (C6_at_out_of_range SimpleVector.pushed123 3).2.1,
    (C6_at_out_of_range SimpleVector.pushed123 2).2.2.2.2.2 (by decide) (by decide)⟩

/-- C7: on `{1, 2, 3}`, `Resize(1)` followed by `Resize(3)` gives `[1, 2, 3]`: growing
within the capacity only sets `size_`, so indices 1 and 2 show the values left there, where
the claim requires `[1, 0, 0]`.  The reallocating branch does store `Type{}` in the new
slots: `Resize(4)` after `Resize(1)` gives `[1, 0, 0, 0]`. -/
theorem C7_resize_within_capacity_keeps_stale :
    SimpleVector.of_init [1, 2, 3] = .ok SimpleVector.vec123 ∧
    SimpleVector.Resize SimpleVector.vec123 1 = .ok ⟨⟨some [1, 2, 3]⟩, 1, 3⟩ ∧
    SimpleVector.Resize (⟨⟨some [1, 2, 3]⟩, 1, 3⟩ : SimpleVector Nat) 3
      = .ok ⟨⟨some [1, 2, 3]⟩, 3, 3⟩ ∧
    (⟨⟨some [1, 2, 3]⟩, 3, 3⟩ : SimpleVector Nat).toList = [1, 2, 3] ∧
    (⟨⟨some [1, 2, 3]⟩, 3, 3⟩ : SimpleVector Nat).toList ≠ [1, default, default] ∧
    SimpleVector.Resize (⟨⟨some [1, 2, 3]⟩, 1, 3⟩ : SimpleVector Nat) 4
      = .ok ⟨⟨some [1, 0, 0, 0, 0, 0]⟩, 4, 6⟩ ∧
    (⟨⟨some [1, 0, 0, 0, 0, 0]⟩, 4, 6⟩ : SimpleVector Nat).toList = [1, 0, 0, 0] :=
  ⟨rfl, rfl, rfl, rfl, by decide, rfl, rfl⟩

/-- C8: for a vector with `size_ <= capacity_` and `n < size_`, `Resize(n)` returns normally
with size `n`, the elements at indices `[0, n)` unchanged, the capacity unchanged and the
same block (no reallocation). -/
theorem C8_resize_truncates {α : Type} [Inhabited α] (v : SimpleVector α) (n : Nat)
    (hsz : v.size_ ≤ v.capacity_) (hn : n < v.size_) :
    ∃ w, SimpleVector.Resize v n = .ok w ∧ w.GetSize = n ∧
      w.GetCapacity = v.GetCapacity ∧ w.items_ = v.items_ ∧
      w.toList = v.toList.take n ∧ ∀ i, i < n → w.index i = v.index i := by
  refine ⟨{ v with size_ := n }, ?_, rfl, rfl, rfl, ?_, ?_⟩
  · simp only [SimpleVector.Resize, if_neg (show ¬ n > v.capacity_ by omega)]
  · simp only [SimpleVector.toList, List.take_take]
    rw [Nat.min_eq_left (by omega)]
  · intro i hi
    simp only [SimpleVector.index, if_pos hi, if_pos (show i < v.size_ by omega)]

theorem C8_resize_truncates_witness :
    SimpleVector.vec123.size_ ≤ SimpleVector.vec123.capacity_ ∧ 1 < SimpleVector.vec123.size_ ∧
    ∃ w, SimpleVector.Resize SimpleVector.vec123 1 = .ok w ∧ w.GetSize = 1 ∧
      w.GetCapacity = SimpleVector.vec123.GetCapacity ∧ w.items_ = SimpleVector.vec123.items_ ∧
      w.toList = SimpleVector.vec123.toList.take 1 ∧
      ∀ i, i < 1 → w.index i = SimpleVector.vec123.index i :=
  ⟨by decide, by decide, C8_resize_truncates SimpleVector.vec123 1 (by decide) (by decide)⟩

/-- C9: for a vector with `size_ <= capacity_` whose block has `capacity_` slots, `Reserve(n)`
returns normally, leaves the size and the sequence of elements unchanged, and results in a
capacity that is at least `n` and at least the old capacity; when `n <= capacity_` the
whole vector is unchanged. -/
theorem C9_reserve {α : Type} [Inhabited α] (v : SimpleVector α) (n : Nat)
    (hsz : v.size_ ≤ v.capacity_) (hblk : v.items_.slots.length = v.capacity_) :
    ∃ w, SimpleVector.Reserve v n = .ok w ∧ w.GetSize = v.GetSize ∧
      w.toList = v.toList ∧ n ≤ w.GetCapacity ∧ v.GetCapacity ≤ w.GetCapacity ∧
      (n ≤ v.GetCapacity → w = v) := by
  simp only [SimpleVector.GetSize, SimpleVector.GetCapacity]
  by_cases hn : v.capacity_ < n
  · obtain ⟨w, hrun, hs, hc, _, hl⟩ := SimpleVector.Reserve_grow_spec v n hsz hblk hn
    exact ⟨w, hrun, hs, hl, by omega, by omega, fun h => absurd h (by omega)⟩
  · exact ⟨v, SimpleVector.Reserve_noop v n (by omega), rfl, rfl, by omega, Nat.le_refl _,
      fun _ => rfl⟩

theorem C9_reserve_witness :
    SimpleVector.vec123.size_ ≤ SimpleVector.vec123.capacity_ ∧
    SimpleVector.vec123.items_.slots.length = SimpleVector.vec123.capacity_ ∧
    ∃ w, SimpleVector.Reserve SimpleVector.vec123 5 = .ok w ∧
      w.GetSize = SimpleVector.vec123.GetSize ∧ w.toList = SimpleVector.vec123.toList ∧
      5 ≤ w.GetCapacity ∧ SimpleVector.vec123.GetCapacity ≤ w.GetCapacity ∧
      (5 ≤ SimpleVector.vec123.GetCapacity → w = SimpleVector.vec123) :=
  ⟨by decide, by decide, C9_reserve SimpleVector.vec123 5 (by decide) (by decide)⟩

/-- C10: for a capacity `n` (a `size_t`) and a list of at most `n` values,
`SimpleVector(Reserve(n))` has size 0 and capacity `n`, and one `PushBack` per value, in
order, returns normally with size the length of the list, the values as elements in
order, and capacity still exactly `n`. -/
theorem C10_reserve_then_push {α : Type} [Inhabited α] (n : Nat) (calls : List (Bool × α))
    (hn : n < SIZE_T_MOD) (hlen : calls.length ≤ n) :
    ∃ v, SimpleVector.of_reserve n = .ok v ∧ v.GetSize = 0 ∧ v.GetCapacity = n ∧
      ∃ w, SimpleVector.push_each v calls = .ok w ∧ w.GetSize = calls.length ∧
        w.toList = calls.map Prod.snd ∧ w.GetCapacity = n := by
  simp only [SimpleVector.GetSize, SimpleVector.GetCapacity]
  have key : ∃ v : SimpleVector α, SimpleVector.of_reserve n = .ok v ∧ v.size_ = 0 ∧
      v.capacity_ = n ∧ v.items_.slots.length = n := by
    by_cases h0 : 0 < n
    · obtain ⟨v, hrun, hs, hc, hb, _⟩ := SimpleVector.Reserve_grow_spec
        (SimpleVector.empty : SimpleVector α) n (Nat.le_refl _) rfl h0
      exact ⟨v, hrun, hs, hc, hb⟩
    · have hz : n = 0 := by omega
      subst hz
      exact ⟨SimpleVector.empty, rfl, rfl, rfl, rfl⟩
  obtain ⟨v, hrun, hs, hc, hb⟩ := key
  obtain ⟨w, hpush, hsw, hcw, hlw⟩ := SimpleVector.push_each_reserved calls v
    (by rw [hb, hc]) (by rw [hs, hc]; omega) (by rw [hc]; exact hn)
  refine ⟨v, hrun, hs, hc, w, hpush, by rw [hsw, hs]; omega, ?_, by rw [hcw, hc]⟩
  rw [hlw]
  simp [SimpleVector.toList, hs]

theorem C10_reserve_then_push_witness :
    10 < SIZE_T_MOD ∧ [(false, (1 : Nat)), (false, 2), (false, 3), (false, 4)].length ≤ 10 ∧
    ∃ v, SimpleVector.of_reserve 10 = .ok v ∧ v.GetSize = 0 ∧ v.GetCapacity = 10 ∧
      ∃ w, SimpleVector.push_each v [(false, (1 : Nat)), (false, 2), (false, 3), (false, 4)]
          = .ok w ∧
        w.GetSize = [(false, (1 : Nat)), (false, 2), (false, 3), (false, 4)].length ∧
        w.toList = [(false, (1 : Nat)), (false, 2), (false, 3), (false, 4)].map Prod.snd ∧
        w.GetCapacity = 10 :=
  ⟨by decide, by decide, C10_reserve_then_push 10 _ (by decide) (by decide)⟩

/-- C11: for every vector `V` whose block holds its `size_` elements (empty or not, whatever
its capacity), in every store, the copy constructor returns a vector `W` at an address of
its own and leaves `V` as it was; `W == V` is true, `W` has the size of `V`, and `W[i]`
equals `V[i]` at every index below the size.  Overwriting any element of `W` in the store
that the two vectors share changes that element of `W` only, and `V` read from the store
after the write is `V` as it was before the copy: the same block, hence every element, the
same size and the same capacity. -/
theorem C11_copy_ctor_round_trip {α : Type} [Inhabited α] [DecidableEq α]
    (h : Heap α) (V : SimpleVectorRef)
    (hV : V.size_ ≤ (V.view h).items_.slots.length) :
    ∃ h1 W, SimpleVectorRef.copy_ctor h V = .ok (h1, W) ∧
      SimpleVector.copy_ctor (V.view h) = .ok (W.view h1) ∧
      V.view h1 = V.view h ∧
      SimpleVector.operator_eq (W.view h1) (V.view h1) = .ok true ∧
      (W.view h1).GetSize = (V.view h1).GetSize ∧
      (∀ i, i < (V.view h1).GetSize →
        (W.view h1).index i = (V.view h1).index i ∧ ∃ x, (V.view h1).index i = .ok x) ∧
      (∀ i x, i < (W.view h1).GetSize →
        ∃ h2, SimpleVectorRef.assign_at h1 W i x = .ok h2 ∧
          (W.view h2).index i = .ok x ∧
          (W.view h2).toList = (V.view h).toList.set i x ∧
          V.view h2 = V.view h ∧
          (∀ j, (V.view h2).index j = (V.view h).index j) ∧
          (V.view h2).toList = (V.view h).toList ∧
          (V.view h2).GetSize = (V.view h).GetSize ∧
          (V.view h2).GetCapacity = (V.view h).GetCapacity) := by
  obtain ⟨h1, W, hrun, hval, hsame, hfresh⟩ := SimpleVectorRef.copy_ctor_view h V hV
  obtain ⟨W1, hrun1, hs, _, hb, hl⟩ := SimpleVector.copy_ctor_spec (V.view h) hV
  have hW1 : W1 = W.view h1 := by
    rw [hrun1] at hval
    exact Except.ok.inj hval
  subst hW1
  have hW : (W.view h1).size_ ≤ (W.view h1).items_.slots.length := by omega
  refine ⟨h1, W, hrun, hrun1, hsame, ?_, ?_, ?_, ?_⟩
  · rw [hsame, SimpleVector.operator_eq_spec _ _ hW hV, hl]
    simp
  · rw [hsame]
    exact hs
  · rw [hsame]
    intro i hi
    exact ⟨((SimpleVector.toList_eq_iff _ _ hW hV).mp hl).2 i (by rw [hs]; exact hi), _,
      SimpleVector.index_of_lt _ i hi (Nat.lt_of_lt_of_le hi hV)⟩
  · intro i x hi
    have hi1 : i < W.size_ := hi
    have hne : V.size_ ≠ 0 := by
      have hsv : W.size_ = V.size_ := hs
      omega
    obtain ⟨hWp, hlt, hVp⟩ := hfresh hne
    obtain ⟨h2, hset, hval2, hother⟩ :=
      SimpleVectorRef.assign_at_view h1 W i x hWp hlt hi1 hW
    obtain ⟨W2, hset2, _, _, hl2, hidx⟩ := SimpleVector.assign_at_spec (W.view h1) i x hi hW
    have hW2 : W2 = W.view h2 := by
      rw [hset2] at hval2
      exact Except.ok.inj hval2
    subst hW2
    have hV2 : V.view h2 = V.view h := by
      have h21 : V.view h2 = V.view h1 := by
        simp only [SimpleVectorRef.view]
        rw [hother V.items_ hVp]
      rw [h21, hsame]
    refine ⟨h2, hset, hidx, by rw [hl2, hl], hV2, ?_, ?_, ?_, ?_⟩
    · intro j
      rw [hV2]
    · rw [hV2]
    · rw [hV2]
    · rw [hV2]

theorem C11_copy_ctor_round_trip_witness :
    SimpleVectorRef.pushed123.size_
      ≤ (SimpleVectorRef.pushed123.view SimpleVectorRef.heap123).items_.slots.length ∧
    ∃ h1 W, SimpleVectorRef.copy_ctor SimpleVectorRef.heap123 SimpleVectorRef.pushed123
        = .ok (h1, W) ∧
      SimpleVector.copy_ctor (SimpleVectorRef.pushed123.view SimpleVectorRef.heap123)
        = .ok (W.view h1) ∧
      SimpleVectorRef.pushed123.view h1
        = SimpleVectorRef.pushed123.view SimpleVectorRef.heap123 ∧
      SimpleVector.operator_eq (W.view h1) (SimpleVectorRef.pushed123.view h1) = .ok true ∧
      (W.view h1).GetSize = (SimpleVectorRef.pushed123.view h1).GetSize ∧
      (∀ i, i < (SimpleVectorRef.pushed123.view h1).GetSize →
        (W.view h1).index i = (SimpleVectorRef.pushed123.view h1).index i ∧
        ∃ x, (SimpleVectorRef.pushed123.view h1).index i = .ok x) ∧
      (∀ i x, i < (W.view h1).GetSize →
        ∃ h2, SimpleVectorRef.assign_at h1 W i x = .ok h2 ∧
          (W.view h2).index i = .ok x ∧
          (W.view h2).toList
            = (SimpleVectorRef.pushed123.view SimpleVectorRef.heap123).toList.set i x ∧
          SimpleVectorRef.pushed123.view h2
            = SimpleVectorRef.pushed123.view SimpleVectorRef.heap123 ∧
          (∀ j, (SimpleVectorRef.pushed123.view h2).index j
            = (SimpleVectorRef.pushed123.view SimpleVectorRef.heap123).index j) ∧
          (SimpleVectorRef.pushed123.view h2).toList
            = (SimpleVectorRef.pushed123.view SimpleVectorRef.heap123).toList ∧
          (SimpleVectorRef.pushed123.view h2).GetSize
            = (SimpleVectorRef.pushed123.view SimpleVectorRef.heap123).GetSize ∧
          (SimpleVectorRef.pushed123.view h2).GetCapacity
            = (SimpleVectorRef.pushed123.view SimpleVectorRef.heap123).GetCapacity) :=
  ⟨by decide,
    C11_copy_ctor_round_trip SimpleVectorRef.heap123 SimpleVectorRef.pushed123 (by decide)⟩

/-- The copy of `{1, 2, 3}` (capacity 4) gets a block of three slots at the next address, and
`W[0] = 9` changes that block only.  The same write through an object that holds the address
of the first block changes the first block, which is what every holder of that address
reads. -/
theorem copy_then_write_example :
    SimpleVectorRef.copy_ctor SimpleVectorRef.heap123 SimpleVectorRef.pushed123
      = .ok ([[1, 2, 3, 0], [1, 2, 3]], ⟨⟨some 1⟩, 3, 3⟩) ∧
    SimpleVectorRef.assign_at [[1, 2, 3, 0], [1, 2, 3]] ⟨⟨some 1⟩, 3, 3⟩ 0 9
      = .ok [[1, 2, 3, 0], [9, 2, 3]] ∧
    (SimpleVectorRef.pushed123.view [[1, 2, 3, 0], [9, 2, 3]]).toList = [1, 2, 3] ∧
    SimpleVectorRef.assign_at SimpleVectorRef.heap123 ⟨⟨some 0⟩, 3, 4⟩ 0 9
      = .ok [[9, 2, 3, 0]] ∧
    (SimpleVectorRef.pushed123.view [[9, 2, 3, 0]]).toList = [9, 2, 3] :=
  ⟨rfl, rfl, rfl, rfl, rfl⟩

/-- C12: for a destination `d` and a distinct source `s` whose block holds its elements, the
copy assignment `d = s` returns a vector that compares equal to `s` (same size, same
element at every index below it); when `s` is empty the result is `d.Clear()`: size 0 and
the capacity `d` had; the move assignment from an empty `s` is `d.Clear()` as well. -/
theorem C12_assignment {α : Type} [Inhabited α] [DecidableEq α] (d s : SimpleVector α)
    (hs : s.size_ ≤ s.items_.slots.length) :
    ∃ w, SimpleVector.copy_assign d s false = .ok w ∧
      SimpleVector.operator_eq w s = .ok true ∧ w.GetSize = s.GetSize ∧
      (∀ i, i < s.GetSize → w.index i = s.index i) ∧
      (s.GetSize = 0 → w = d.Clear ∧ w.GetSize = 0 ∧ w.GetCapacity = d.GetCapacity ∧
        SimpleVector.move_assign d s false = .ok d.Clear) := by
  simp only [SimpleVector.GetSize, SimpleVector.GetCapacity]
  by_cases h0 : s.size_ = 0
  · have hl : (d.Clear).toList = s.toList := by
      simp [SimpleVector.toList, SimpleVector.Clear, h0]
    have hw : (d.Clear).size_ ≤ (d.Clear).items_.slots.length := Nat.zero_le _
    refine ⟨d.Clear, SimpleVector.copy_assign_empty d s h0, ?_, h0.symm, ?_, ?_⟩
    · rw [SimpleVector.operator_eq_spec _ s hw hs, hl]
      simp
    · intro i hi
      omega
    · intro _
      exact ⟨rfl, rfl, rfl, by
        rw [SimpleVector.move_assign_eq]; exact SimpleVector.copy_assign_empty d s h0⟩
  · obtain ⟨w, hrun, hsw, _, hb, hl⟩ := SimpleVector.copy_assign_spec d s hs h0
    have hw : w.size_ ≤ w.items_.slots.length := by omega
    refine ⟨w, hrun, ?_, hsw, ?_, fun h => absurd h h0⟩
    · rw [SimpleVector.operator_eq_spec w s hw hs, hl]
      simp
    · intro i hi
      exact ((SimpleVector.toList_eq_iff w s hw hs).mp hl).2 i (by omega)

theorem C12_assignment_witness :
    SimpleVector.pushed123.size_ ≤ SimpleVector.pushed123.items_.slots.length ∧
    ∃ w, SimpleVector.copy_assign SimpleVector.vec12 SimpleVector.pushed123 false = .ok w ∧
      SimpleVector.operator_eq w SimpleVector.pushed123 = .ok true ∧
      w.GetSize = SimpleVector.pushed123.GetSize ∧
      (∀ i, i < SimpleVector.pushed123.GetSize → w.index i = SimpleVector.pushed123.index i) ∧
      (SimpleVector.pushed123.GetSize = 0 →
        w = SimpleVector.vec12.Clear ∧ w.GetSize = 0 ∧
        w.GetCapacity = SimpleVector.vec12.GetCapacity ∧
        SimpleVector.move_assign SimpleVector.vec12 SimpleVector.pushed123 false
          = .ok SimpleVector.vec12.Clear) :=
  ⟨by decide, C12_assignment SimpleVector.vec12 SimpleVector.pushed123 (by decide)⟩

/-- The empty-source case of C12 on `d = {1, 2}`: both assignments leave size 0 and
capacity 2. -/
theorem assignment_from_empty_example :
    SimpleVector.copy_assign SimpleVector.vec12 SimpleVector.empty false
      = .ok ⟨⟨some [1, 2]⟩, 0, 2⟩ ∧
    SimpleVector.move_assign SimpleVector.vec12 SimpleVector.empty false
      = .ok ⟨⟨some [1, 2]⟩, 0, 2⟩ :=
  ⟨rfl, rfl⟩

/-- C13: for vectors `a` and `b` whose blocks hold their elements, `a == b` returns `true`
exactly when the sizes are equal and `a[i]` equals `b[i]` at every index below the size;
`a != b` returns the negation; and any two vectors with the same logical sequences as `a`
and `b` (whatever their capacities and the slots at indices `>= size`) compare the same. -/
theorem C13_operator_eq {α : Type} [DecidableEq α] (a b : SimpleVector α)
    (ha : a.size_ ≤ a.items_.slots.length) (hb : b.size_ ≤ b.items_.slots.length) :
    ∃ r, SimpleVector.operator_eq a b = .ok r ∧
      (r = true ↔ a.GetSize = b.GetSize ∧ ∀ i, i < a.GetSize → a.index i = b.index i) ∧
      SimpleVector.operator_ne a b = .ok (!r) ∧
      ∀ a2 b2 : SimpleVector α, a2.size_ ≤ a2.items_.slots.length →
        b2.size_ ≤ b2.items_.slots.length → a2.toList = a.toList → b2.toList = b.toList →
        SimpleVector.operator_eq a2 b2 = .ok r := by
  have hrun := SimpleVector.operator_eq_spec a b ha hb
  refine ⟨decide (a.toList = b.toList), hrun, ?_, ?_, ?_⟩
  · simp only [SimpleVector.GetSize, decide_eq_true_eq]
    exact SimpleVector.toList_eq_iff a b ha hb
  · simp only [SimpleVector.operator_ne, hrun]
  · intro a2 b2 ha2 hb2 hla hlb
    rw [SimpleVector.operator_eq_spec a2 b2 ha2 hb2, hla, hlb]

theorem C13_operator_eq_witness :
    SimpleVector.vec123.size_ ≤ SimpleVector.vec123.items_.slots.length ∧
    SimpleVector.pushed123.size_ ≤ SimpleVector.pushed123.items_.slots.length ∧
    ∃ r, SimpleVector.operator_eq SimpleVector.vec123 SimpleVector.pushed123 = .ok r ∧
      (r = true ↔ SimpleVector.vec123.GetSize = SimpleVector.pushed123.GetSize ∧
        ∀ i, i < SimpleVector.vec123.GetSize →
          SimpleVector.vec123.index i = SimpleVector.pushed123.index i) ∧
      SimpleVector.operator_ne SimpleVector.vec123 SimpleVector.pushed123 = .ok (!r) ∧
      ∀ a2 b2 : SimpleVector Nat, a2.size_ ≤ a2.items_.slots.length →
        b2.size_ ≤ b2.items_.slots.length → a2.toList = SimpleVector.vec123.toList →
        b2.toList = SimpleVector.pushed123.toList →
        SimpleVector.operator_eq a2 b2 = .ok r :=
  ⟨by decide, by decide,
    C13_operator_eq SimpleVector.vec123 SimpleVector.pushed123 (by decide) (by decide)⟩

/-- C14: for vectors `a` and `b` over a totally ordered element type whose blocks hold their
elements, `a < b` returns `true` exactly when the logical sequence of `a` precedes that of
`b` lexicographically: at the first index where they differ the element of `a` is the
smaller one, or `a` is a proper initial segment of `b`. -/
theorem C14_operator_lt {α : Type} [LinearOrder α] (a b : SimpleVector α)
    (ha : a.size_ ≤ a.items_.slots.length) (hb : b.size_ ≤ b.items_.slots.length) :
    ∃ r, SimpleVector.operator_lt a b = .ok r ∧
      (r = true ↔ SimpleVector.lex_precedes a.toList b.toList) ∧
      a.toList.length = a.GetSize ∧ b.toList.length = b.GetSize := by
  exact ⟨SimpleVector.lex_lt_list a.toList b.toList, SimpleVector.operator_lt_spec a b ha hb,
    lex_lt_list_iff a.toList b.toList, SimpleVector.toList_length a ha,
    SimpleVector.toList_length b hb⟩

theorem C14_operator_lt_witness :
    SimpleVector.vec123.size_ ≤ SimpleVector.vec123.items_.slots.length ∧
    SimpleVector.vec124.size_ ≤ SimpleVector.vec124.items_.slots.length ∧
    ∃ r, SimpleVector.operator_lt SimpleVector.vec123 SimpleVector.vec124 = .ok r ∧
      (r = true ↔
        SimpleVector.lex_precedes SimpleVector.vec123.toList SimpleVector.vec124.toList) ∧
      SimpleVector.vec123.toList.length = SimpleVector.vec123.GetSize ∧
      SimpleVector.vec124.toList.length = SimpleVector.vec124.GetSize :=
  ⟨by decide, by decide,
    C14_operator_lt SimpleVector.vec123 SimpleVector.vec124 (by decide) (by decide)⟩

/-- The comparisons named in the specification: `{1,2,3} == {1,2,3}`, `{1,2,3} < {1,2,4}` and
`{1,2} < {1,2,3}` are true, and the reversed orderings are false. -/
theorem spec_example_comparisons :
    SimpleVector.operator_eq SimpleVector.vec123 SimpleVector.vec123 = .ok true ∧
    SimpleVector.operator_lt SimpleVector.vec123 SimpleVector.vec124 = .ok true ∧
    SimpleVector.operator_lt SimpleVector.vec12 SimpleVector.vec123 = .ok true ∧
    SimpleVector.operator_lt SimpleVector.vec124 SimpleVector.vec123 = .ok false ∧
    SimpleVector.operator_lt SimpleVector.vec123 SimpleVector.vec12 = .ok false :=
  ⟨rfl, rfl, rfl, rfl, rfl⟩

/-- C15: `operator>` returns `lhs < rhs` and `operator<=` returns `!(lhs < rhs)`, the bodies
of `operator<` and `operator>=`.  With `a = {1, 2, 3}` and `b = {1, 2, 4}`: `a > b` is true
although `b < a` is false, so `a > b` and `a < b` are both true; `a <= b` is false although
`a < b` is true; `b <= a` is true although `a < b`.  `operator>=` is `!(a < b)` as claimed,
and `a <= a` is true. -/
theorem C15_derived_orderings_reversed :
    (∀ a b : SimpleVector Nat,
      SimpleVector.operator_gt a b = SimpleVector.operator_lt a b ∧
      SimpleVector.operator_le a b = SimpleVector.operator_ge a b) ∧
    SimpleVector.operator_lt SimpleVector.vec123 SimpleVector.vec124 = .ok true ∧
    SimpleVector.operator_lt SimpleVector.vec124 SimpleVector.vec123 = .ok false ∧
    SimpleVector.operator_gt SimpleVector.vec123 SimpleVector.vec124 = .ok true ∧
    SimpleVector.operator_gt SimpleVector.vec124 SimpleVector.vec123 = .ok false ∧
    SimpleVector.operator_le SimpleVector.vec123 SimpleVector.vec124 = .ok false ∧
    SimpleVector.operator_le SimpleVector.vec124 SimpleVector.vec123 = .ok true ∧
    SimpleVector.operator_ge SimpleVector.vec123 SimpleVector.vec124 = .ok false ∧
    SimpleVector.operator_ge SimpleVector.vec124 SimpleVector.vec123 = .ok true ∧
    SimpleVector.operator_le SimpleVector.vec123 SimpleVector.vec123 = .ok true :=
  ⟨fun _ _ => ⟨rfl, rfl⟩, rfl, rfl, rfl, rfl, rfl, rfl, rfl, rfl, rfl⟩

/-- C16: `size <= capacity` holds after every constructor (default, sized, sized with value,
initializer list, `Reserve` hint, copy, move, the moved-from source included) and every
public operation called within its precondition returns a vector with `size <= capacity`:
copy and move assignment, `Reserve`, `Resize`, `Clear`, both `PushBack`, both `Insert`
at a position in `[0, size]`, `PopBack` on a non-empty vector, `Erase` at a position in
`[0, size)`, and `swap`.  The operations that touch the block are taken on a block of
`capacity_` slots, the doubling ones with `2 * capacity_` fitting a `size_t`. -/
theorem C16_size_le_capacity {α : Type} [Inhabited α] :
    (SimpleVector.empty : SimpleVector α).size_le_capacity ∧
    (∀ n, ∃ w : SimpleVector α, SimpleVector.sized n = .ok w ∧ w.size_le_capacity) ∧
    (∀ n (value : α), ∃ w, SimpleVector.sized_value n value = .ok w ∧ w.size_le_capacity) ∧
    (∀ init : List α, ∃ w, SimpleVector.of_init init = .ok w ∧ w.size_le_capacity) ∧
    (∀ n, ∃ w : SimpleVector α, SimpleVector.of_reserve n = .ok w ∧ w.size_le_capacity) ∧
    (∀ other : SimpleVector α, other.size_ ≤ other.items_.slots.length →
      ∃ w, SimpleVector.copy_ctor other = .ok w ∧ w.size_le_capacity) ∧
    (∀ other : SimpleVector α, other.size_le_capacity →
      (SimpleVector.move_ctor other).1.size_le_capacity ∧
      (SimpleVector.move_ctor other).2.size_le_capacity) ∧
    (∀ (v rhs : SimpleVector α) (self_assignment : Bool), v.size_le_capacity →
      rhs.size_le_capacity → rhs.size_ ≤ rhs.items_.slots.length →
      (∃ w, SimpleVector.copy_assign v rhs self_assignment = .ok w ∧ w.size_le_capacity) ∧
      (∃ w, SimpleVector.move_assign v rhs self_assignment = .ok w ∧ w.size_le_capacity)) ∧
    (∀ (v : SimpleVector α) (n : Nat), v.size_le_capacity → v.capacity_is_block →
      ∃ w, SimpleVector.Reserve v n = .ok w ∧ w.size_le_capacity) ∧
    (∀ (v : SimpleVector α) (n : Nat), v.size_le_capacity →
      v.size_ ≤ v.items_.slots.length →
      ∃ w, SimpleVector.Resize v n = .ok w ∧ w.size_le_capacity) ∧
    (∀ v : SimpleVector α, v.Clear.size_le_capacity) ∧
    (∀ (v : SimpleVector α) (item : α), v.size_le_capacity → v.capacity_is_block →
      2 * v.capacity_ < SIZE_T_MOD →
      (∃ w, SimpleVector.PushBack v item = .ok w ∧ w.size_le_capacity) ∧
      (∃ w, SimpleVector.PushBack_move v item = .ok w ∧ w.size_le_capacity)) ∧
    (∀ (v : SimpleVector α) (pos : Nat) (item : α), v.size_le_capacity →
      v.capacity_is_block → 2 * v.capacity_ < SIZE_T_MOD → pos ≤ v.size_ →
      (∃ it w, SimpleVector.Insert v pos item = .ok (it, w) ∧ w.size_le_capacity) ∧
      (∃ it w, SimpleVector.Insert_move v pos item = .ok (it, w) ∧ w.size_le_capacity)) ∧
    (∀ v : SimpleVector α, v.size_le_capacity → v.IsEmpty = false →
      ∃ w, SimpleVector.PopBack v = .ok w ∧ w.size_le_capacity) ∧
    (∀ (v : SimpleVector α) (pos : Nat), v.size_le_capacity → v.capacity_is_block →
      pos < v.size_ → ∃ it w, SimpleVector.Erase v pos = .ok (it, w) ∧ w.size_le_capacity) ∧
    (∀ v other : SimpleVector α, v.size_le_capacity → other.size_le_capacity →
      (SimpleVector.swap v other).1.size_le_capacity ∧
      (SimpleVector.swap v other).2.size_le_capacity) := by
  simp only [SimpleVector.size_le_capacity, SimpleVector.capacity_is_block]
  refine ⟨Nat.le_refl _, ?_, ?_, ?_, ?_, ?_, ?_, ?_, ?_, ?_, ?_, ?_, ?_, ?_, ?_, ?_⟩
  · intro n
    obtain ⟨w, h, hs, hc, _⟩ := SimpleVector.sized_spec (α := α) n
    exact ⟨w, h, by omega⟩
  · intro n value
    obtain ⟨w, h, hs, hc, _⟩ := SimpleVector.sized_value_spec n value
    exact ⟨w, h, by omega⟩
  · intro init
    obtain ⟨w, h, hs, hc, _⟩ := SimpleVector.of_init_spec init
    exact ⟨w, h, by omega⟩
  · intro n
    obtain ⟨w, h, hs, hc, _⟩ := SimpleVector.of_reserve_spec (α := α) n
    exact ⟨w, h, by omega⟩
  · intro other hb
    obtain ⟨w, h, hs, hc, _⟩ := SimpleVector.copy_ctor_spec other hb
    exact ⟨w, h, by omega⟩
  · intro other ho
    exact ⟨ho, Nat.le_refl _⟩
  · intro v rhs self_assignment hv hr hb
    obtain ⟨w, h, hw⟩ := SimpleVector.copy_assign_ok v rhs self_assignment hb
    have hinv : w.size_ ≤ w.capacity_ := by
      rcases hw with hw | hw | ⟨hs, hc⟩
      · rw [hw]; exact hv
      · rw [hw]; exact Nat.zero_le _
      · omega
    exact ⟨⟨w, h, hinv⟩, ⟨w, by rw [SimpleVector.move_assign_eq]; exact h, hinv⟩⟩
  · intro v n hv hb
    obtain ⟨w, h, hs, hc, _⟩ := SimpleVector.Reserve_ok_spec v n hv hb
    exact ⟨w, h, by omega⟩
  · intro v n hv hb
    obtain ⟨w, h, hs, hc⟩ := SimpleVector.Resize_ok_spec v n hv hb
    refine ⟨w, h, ?_⟩
    rw [hs, hc]
    split <;> omega
  · intro v
    exact Nat.zero_le _
  · intro v item hv hb hfit
    obtain ⟨w, h, hs, hc, _⟩ := SimpleVector.PushBack_spec v item hv hb hfit
    have hinv : w.size_ ≤ w.capacity_ := by
      rw [hs, hc]; split <;> omega
    exact ⟨⟨w, h, hinv⟩, ⟨w, by rw [SimpleVector.PushBack_move_eq]; exact h, hinv⟩⟩
  · intro v pos item hv hb hfit hpos
    obtain ⟨w, h, hs, hc, _⟩ := SimpleVector.Insert_ok_spec v pos item hv hb hfit hpos
    obtain ⟨w2, h2, hs2, hc2, _⟩ := SimpleVector.Insert_move_spec v pos item hv hb hfit hpos
    exact ⟨⟨pos, w, h, by rw [hs, hc]; split <;> omega⟩,
      ⟨pos, w2, h2, by rw [hs2, hc2]; split <;> omega⟩⟩
  · intro v hv hne
    refine ⟨{ v with size_ := v.size_ - 1 }, by simp only [SimpleVector.PopBack, hne]; rfl, ?_⟩
    show v.size_ - 1 ≤ v.capacity_
    omega
  · intro v pos hv hb hpos
    obtain ⟨w, h, hs, hc, _⟩ := SimpleVector.Erase_spec v pos hv hb hpos
    exact ⟨pos, w, h, by omega⟩
  · intro v other hv ho
    exact ⟨ho, hv⟩

theorem C16_size_le_capacity_witness :
    (∃ w, SimpleVector.PushBack SimpleVector.vec123 4 = .ok w ∧ w.size_le_capacity) ∧
    (∃ it w, SimpleVector.Insert SimpleVector.vec123 1 9 = .ok (it, w) ∧
      w.size_le_capacity) ∧
    (∃ it w, SimpleVector.Erase SimpleVector.vec123 1 = .ok (it, w) ∧ w.size_le_capacity) ∧
    (∃ w, SimpleVector.copy_assign SimpleVector.vec12 SimpleVector.pushed123 false = .ok w ∧
      w.size_le_capacity) ∧
    (∃ w, SimpleVector.PopBack SimpleVector.vec123 = .ok w ∧ w.size_le_capacity) :=
  ⟨((C16_size_le_capacity (α := Nat)).2.2.2.2.2.2.2.2.2.2.2.1 SimpleVector.vec123 4
      (by decide) (by decide) (by decide)).1,
    ((C16_size_le_capacity (α := Nat)).2.2.2.2.2.2.2.2.2.2.2.2.1 SimpleVector.vec123 1 9
      (by decide) (by decide) (by decide) (by decide)).1,
    (C16_size_le_capacity (α := Nat)).2.2.2.2.2.2.2.2.2.2.2.2.2.2.1 SimpleVector.vec123 1
      (by decide) (by decide) (by decide),
    ((C16_size_le_capacity (α := Nat)).2.2.2.2.2.2.2.1 SimpleVector.vec12
      SimpleVector.pushed123 false (by decide) (by decide) (by decide)).1,
    (C16_size_le_capacity (α := Nat)).2.2.2.2.2.2.2.2.2.2.2.2.2.1 SimpleVector.vec123
      (by decide) (by decide)⟩

/-- C17: for a vector with `size_ <= capacity_` whose block has `capacity_` slots and with
`2 * capacity_` fitting a `size_t`, every growing operation returns with a capacity that
is no smaller than before and covers what it needs: `Reserve(n)` and `Resize(n)` give a
capacity at least `n`; both `PushBack` and both `Insert` (at a position in `[0, size]`)
give a capacity at least the old size plus one, which is the new size. -/
theorem C17_growth_covers {α : Type} [Inhabited α] (v : SimpleVector α)
    (hsz : v.size_ ≤ v.capacity_) (hblk : v.items_.slots.length = v.capacity_)
    (hfit : 2 * v.capacity_ < SIZE_T_MOD) :
    (∀ n, ∃ w, SimpleVector.Reserve v n = .ok w ∧
      v.GetCapacity ≤ w.GetCapacity ∧ n ≤ w.GetCapacity) ∧
    (∀ n, ∃ w, SimpleVector.Resize v n = .ok w ∧
      v.GetCapacity ≤ w.GetCapacity ∧ n ≤ w.GetCapacity) ∧
    (∀ item, ∃ w, SimpleVector.PushBack v item = .ok w ∧ v.GetCapacity ≤ w.GetCapacity ∧
      v.GetSize + 1 ≤ w.GetCapacity ∧ w.GetSize = v.GetSize + 1) ∧
    (∀ item, ∃ w, SimpleVector.PushBack_move v item = .ok w ∧
      v.GetCapacity ≤ w.GetCapacity ∧ v.GetSize + 1 ≤ w.GetCapacity ∧
      w.GetSize = v.GetSize + 1) ∧
    (∀ pos item, pos ≤ v.GetSize → ∃ it w, SimpleVector.Insert v pos item = .ok (it, w) ∧
      v.GetCapacity ≤ w.GetCapacity ∧ v.GetSize + 1 ≤ w.GetCapacity ∧
      w.GetSize = v.GetSize + 1) ∧
    (∀ pos item, pos ≤ v.GetSize →
      ∃ it w, SimpleVector.Insert_move v pos item = .ok (it, w) ∧
        v.GetCapacity ≤ w.GetCapacity ∧ v.GetSize + 1 ≤ w.GetCapacity ∧
        w.GetSize = v.GetSize + 1) := by
  simp only [SimpleVector.GetSize, SimpleVector.GetCapacity]
  refine ⟨?_, ?_, ?_, ?_, ?_, ?_⟩
  · intro n
    obtain ⟨w, h, _, hc, _⟩ := SimpleVector.Reserve_ok_spec v n hsz hblk
    exact ⟨w, h, by omega, by omega⟩
  · intro n
    obtain ⟨w, h, _, hc⟩ := SimpleVector.Resize_ok_spec v n hsz (by omega)
    refine ⟨w, h, ?_, ?_⟩ <;> rw [hc] <;> split <;> omega
  · intro item
    obtain ⟨w, h, hs, hc, _⟩ := SimpleVector.PushBack_spec v item hsz hblk hfit
    refine ⟨w, h, ?_, ?_, hs⟩ <;> rw [hc] <;> split <;> omega
  · intro item
    obtain ⟨w, h, hs, hc, _⟩ := SimpleVector.PushBack_spec v item hsz hblk hfit
    refine ⟨w, by rw [SimpleVector.PushBack_move_eq]; exact h, ?_, ?_, hs⟩ <;>
      rw [hc] <;> split <;> omega
  · intro pos item hpos
    obtain ⟨w, h, hs, hc, _⟩ := SimpleVector.Insert_ok_spec v pos item hsz hblk hfit hpos
    refine ⟨pos, w, h, ?_, ?_, hs⟩ <;> rw [hc] <;> split <;> omega
  · intro pos item hpos
    obtain ⟨w, h, hs, hc, _⟩ := SimpleVector.Insert_move_spec v pos item hsz hblk hfit hpos
    refine ⟨pos, w, h, ?_, ?_, hs⟩ <;> rw [hc] <;> split <;> omega

theorem C17_growth_covers_witness :
    SimpleVector.vec123.size_ ≤ SimpleVector.vec123.capacity_ ∧
    SimpleVector.vec123.items_.slots.length = SimpleVector.vec123.capacity_ ∧
    2 * SimpleVector.vec123.capacity_ < SIZE_T_MOD ∧
    (∃ w, SimpleVector.Reserve SimpleVector.vec123 5 = .ok w ∧
      SimpleVector.vec123.GetCapacity ≤ w.GetCapacity ∧ 5 ≤ w.GetCapacity) ∧
    (∃ w, SimpleVector.PushBack SimpleVector.vec123 4 = .ok w ∧
      SimpleVector.vec123.GetCapacity ≤ w.GetCapacity ∧
      SimpleVector.vec123.GetSize + 1 ≤ w.GetCapacity ∧
      w.GetSize = SimpleVector.vec123.GetSize + 1) :=
  ⟨by decide, by decide, by decide,
    (C17_growth_covers SimpleVector.vec123 (by decide) (by decide) (by decide)).1 5,
    (C17_growth_covers SimpleVector.vec123 (by decide) (by decide) (by decide)).2.2.1 4⟩

/-- C18 as stated fails when the destination owns a block: after `dst = std::move(src)` with
`dst` owning `[1]` and `src` owning `[2]`, `dst` owns `[2]` but `src` owns `[1]`: it is
not left empty. -/
theorem C18_move_assign_source_keeps_block :
    (ArrayPtr.move_assign (⟨some [1]⟩ : ArrayPtr Nat) ⟨some [2]⟩ false).1.Get = some [2] ∧
    (ArrayPtr.move_assign (⟨some [1]⟩ : ArrayPtr Nat) ⟨some [2]⟩ false).2.Get = some [1] ∧
    (ArrayPtr.move_assign (⟨some [1]⟩ : ArrayPtr Nat) ⟨some [2]⟩ false).2.Get ≠ none :=
  ⟨rfl, rfl, by decide⟩

/-- C18, amended: for distinct buffers, after the move assignment `dst = std::move(src)`,
`dst` owns the block `src` owned before and `src` owns the block `dst` owned before, so
`src` is left empty exactly when `dst` was empty; a self move assignment leaves the buffer
unchanged; move construction gives the new buffer the block of the source and leaves the
source empty. -/
theorem C18_move_exchanges_blocks {α : Type} (dst src : ArrayPtr α) :
    (ArrayPtr.move_assign dst src false).1.Get = src.Get ∧
    (ArrayPtr.move_assign dst src false).2.Get = dst.Get ∧
    ((ArrayPtr.move_assign dst src false).2.Get = none ↔ dst.Get = none) ∧
    ArrayPtr.move_assign dst dst true = (dst, dst) ∧
    (ArrayPtr.move_ctor src).1.Get = src.Get ∧
    (ArrayPtr.move_ctor src).2.Get = none :=
  ⟨rfl, rfl, Iff.rfl, rfl, rfl, rfl⟩

/-- C19: the assignment `d = s` from `s` with size 3 and capacity 4 (the vector after three
`PushBack` calls) into an empty `d` leaves `d` with a block of 3 slots under
`capacity_ == 4`, for the copy and for the move assignment; the following
`d.PushBack(4)` takes the in-place branch and writes slot 3, outside the block. -/
theorem C19_assignment_breaks_capacity :
    SimpleVector.push_each SimpleVector.empty [(false, 1), (false, 2), (false, 3)]
      = .ok SimpleVector.pushed123 ∧
    SimpleVector.pushed123.capacity_is_block ∧
    SimpleVector.copy_assign SimpleVector.empty SimpleVector.pushed123 false
      = .ok ⟨⟨some [1, 2, 3]⟩, 3, 4⟩ ∧
    SimpleVector.move_assign SimpleVector.empty SimpleVector.pushed123 false
      = .ok ⟨⟨some [1, 2, 3]⟩, 3, 4⟩ ∧
    ¬ (⟨⟨some [1, 2, 3]⟩, 3, 4⟩ : SimpleVector Nat).capacity_is_block ∧
    (⟨⟨some [1, 2, 3]⟩, 3, 4⟩ : SimpleVector Nat).items_.slots.length = 3 ∧
    SimpleVector.PushBack (⟨⟨some [1, 2, 3]⟩, 3, 4⟩ : SimpleVector Nat) 4
      = .error .bad_access :=
  ⟨rfl, by decide, rfl, rfl, by decide, rfl, rfl⟩

/-- C20: after `N` `PushBack` calls (either overload, `N <= 2 ^ 63`) on a default-constructed
vector the size is `N`; the capacity is 0 when `N = 0` and otherwise the smallest power of
two that is at least `N`, so `size <= capacity < 2 * size`; and the push numbered `N + 1`
changes the capacity (reallocates) exactly when `N + 1` is 1 or `2 ^ k + 1`. -/
theorem C20_capacity_smallest_power_of_two {α : Type} [Inhabited α]
    (calls : List (Bool × α)) (hlen : 2 * calls.length ≤ SIZE_T_MOD) :
    ∃ w, SimpleVector.push_each SimpleVector.empty calls = .ok w ∧
      w.GetSize = calls.length ∧
      (calls.length = 0 → w.GetCapacity = 0) ∧
      (1 ≤ calls.length →
        (∃ k : Nat, w.GetCapacity = 2 ^ k ∧ calls.length ≤ 2 ^ k ∧
          ∀ j : Nat, calls.length ≤ 2 ^ j → 2 ^ k ≤ 2 ^ j) ∧
        w.GetSize ≤ w.GetCapacity ∧ w.GetCapacity < 2 * w.GetSize) ∧
      (∀ item, 2 * (calls.length + 1) ≤ SIZE_T_MOD →
        ∃ w2, SimpleVector.PushBack w item = .ok w2 ∧
          (w2.GetCapacity ≠ w.GetCapacity ↔
            (calls.length + 1 = 1 ∨ ∃ k : Nat, calls.length + 1 = 2 ^ k + 1))) := by
  obtain ⟨w, hrun, hs, hsz, hblk, hshape⟩ :=
    SimpleVector.push_each_doubling calls SimpleVector.empty (Nat.le_refl _) rfl
      (Or.inl ⟨rfl, rfl⟩) (by simpa [SimpleVector.empty] using hlen)
  have hsize : w.size_ = calls.length := by simpa [SimpleVector.empty] using hs
  simp only [SimpleVector.GetSize, SimpleVector.GetCapacity]
  refine ⟨w, hrun, hsize, ?_, ?_, ?_⟩
  · intro h0
    rcases hshape with ⟨_, hc⟩ | ⟨k, _, _, hlt⟩
    · exact hc
    · omega
  · intro h1
    rcases hshape with ⟨h0, _⟩ | ⟨k, hc, hle, hlt⟩
    · omega
    · refine ⟨⟨k, hc, by omega, ?_⟩, hle, hlt⟩
      intro j hj
      exact SimpleVector.doubling_shape_least calls.length k j (by omega) hj
  · intro item hnext
    have hM := SIZE_T_MOD_eq
    obtain ⟨w2, hpush, _, hc2, _⟩ :=
      SimpleVector.PushBack_spec_full w item hsz hblk (by omega) (by intro _; omega)
    refine ⟨w2, hpush, ?_⟩
    have hfull := SimpleVector.doubling_shape_full_iff w hshape
    rw [hsize] at hfull
    have hcap : w2.capacity_ ≠ w.capacity_ ↔ ¬ w.size_ < w.capacity_ := by
      rw [hc2]
      by_cases hb : w.size_ < w.capacity_
      · rw [if_pos hb]; simp [hb]
      · rw [if_neg hb]
        constructor
        · intro _; exact hb
        · intro _; omega
    rw [hcap, hsize, hfull]
    constructor
    · rintro (h0 | ⟨k, hk⟩)
      · left; omega
      · right; exact ⟨k, by omega⟩
    · rintro (h0 | ⟨k, hk⟩)
      · left; omega
      · right; exact ⟨k, by omega⟩

theorem C20_capacity_smallest_power_of_two_witness :
    2 * [(false, (1 : Nat)), (false, 2), (true, 3), (false, 4), (true, 5)].length
      ≤ SIZE_T_MOD ∧
    ∃ w, SimpleVector.push_each SimpleVector.empty
        [(false, (1 : Nat)), (false, 2), (true, 3), (false, 4), (true, 5)] = .ok w ∧
      w.GetSize = [(false, (1 : Nat)), (false, 2), (true, 3), (false, 4), (true, 5)].length ∧
      ([(false, (1 : Nat)), (false, 2), (true, 3), (false, 4), (true, 5)].length = 0 →
        w.GetCapacity = 0) ∧
      (1 ≤ [(false, (1 : Nat)), (false, 2), (true, 3), (false, 4), (true, 5)].length →
        (∃ k : Nat, w.GetCapacity = 2 ^ k ∧
          [(false, (1 : Nat)), (false, 2), (true, 3), (false, 4), (true, 5)].length ≤ 2 ^ k ∧
          ∀ j : Nat,
            [(false, (1 : Nat)), (false, 2), (true, 3), (false, 4), (true, 5)].length ≤ 2 ^ j →
            2 ^ k ≤ 2 ^ j) ∧
        w.GetSize ≤ w.GetCapacity ∧ w.GetCapacity < 2 * w.GetSize) ∧
      (∀ item,
        2 * ([(false, (1 : Nat)), (false, 2), (true, 3), (false, 4), (true, 5)].length + 1)
          ≤ SIZE_T_MOD →
        ∃ w2, SimpleVector.PushBack w item = .ok w2 ∧
          (w2.GetCapacity ≠ w.GetCapacity ↔
            ([(false, (1 : Nat)), (false, 2), (true, 3), (false, 4), (true, 5)].length + 1 = 1 ∨
              ∃ k : Nat,
                [(false, (1 : Nat)), (false, 2), (true, 3), (false, 4), (true, 5)].length + 1
                  = 2 ^ k + 1))) :=
  ⟨by decide, C20_capacity_smallest_power_of_two _ (by decide)⟩

/-- The capacities after 0 to 5 pushes are 0, 1, 2, 4, 4, 8. -/
theorem doubling_example :
    (SimpleVector.empty : SimpleVector Nat).GetCapacity = 0 ∧
    SimpleVector.push_each SimpleVector.empty [(false, 1)] = .ok ⟨⟨some [1]⟩, 1, 1⟩ ∧
    SimpleVector.push_each SimpleVector.empty [(false, 1), (false, 2)]
      = .ok ⟨⟨some [1, 2]⟩, 2, 2⟩ ∧
    SimpleVector.push_each SimpleVector.empty [(false, 1), (false, 2), (false, 3)]
      = .ok ⟨⟨some [1, 2, 3, 0]⟩, 3, 4⟩ ∧
    SimpleVector.push_each SimpleVector.empty [(false, 1), (false, 2), (false, 3), (false, 4)]
      = .ok ⟨⟨some [1, 2, 3, 4]⟩, 4, 4⟩ ∧
    SimpleVector.push_each SimpleVector.empty
        [(false, 1), (false, 2), (false, 3), (false, 4), (false, 5)]
      = .ok ⟨⟨some [1, 2, 3, 4, 5, 0, 0, 0]⟩, 5, 8⟩ :=
  ⟨rfl, rfl, rfl, rfl, rfl, rfl⟩
